import Mathlib

/-!
Verification of the `trivial-graph` directed-graph library.

The Rust sources are embedded shallowly:

* `HashMap<usize, _>` becomes an association list `List (Nat × _)` whose list
  order stands for the map's (unspecified) iteration order; lookup is
  first-match, insertion replaces in place or appends.
* `HashSet<usize>` becomes a duplicate-free `List Nat`; insertion appends when
  absent, again standing for the unspecified iteration order.
* A Rust method that can panic (an `unwrap` on a missing key) returns
  `Option`, with `none` for the panic.
* `read_from`'s `BufRead::read_line` boundary is modelled by splitting the
  input character stream into lines at `'\n'`; an exhausted stream is the
  empty read that terminates each section loop.
-/

namespace TG

/-- Lookup in an association list, modelling `HashMap::get` (first match). -/
def alookup {α : Type} : List (Nat × α) → Nat → Option α
  | [], _ => none
  | (k, v) :: rest, k' => if k = k' then some v else alookup rest k'

/-- Insert into an association list, modelling `HashMap::insert`:
replaces the value of an existing key in place, otherwise appends. -/
def ainsert {α : Type} : List (Nat × α) → Nat → α → List (Nat × α)
  | [], k, v => [(k, v)]
  | (k', v') :: rest, k, v =>
    if k' = k then (k, v) :: rest else (k', v') :: ainsert rest k v

/-- Remove a key, modelling the effect of `HashMap::remove` on the map. -/
def aerase {α : Type} (m : List (Nat × α)) (k : Nat) : List (Nat × α) :=
  m.filter fun p => p.1 ≠ k

/-- Insert into a duplicate-free list, modelling `HashSet::insert`. -/
def sinsert (s : List Nat) (x : Nat) : List Nat :=
  if x ∈ s then s else s ++ [x]

/-- Remove from a duplicate-free list, modelling `HashSet::remove`. -/
def serase (s : List Nat) (x : Nat) : List Nat :=
  s.filter fun y => y ≠ x

/-- `GraphVertex` from `graph_vertex.rs`: an identifier plus a value. -/
structure GraphVertex (T : Type) where
  id : Nat
  value : T
  deriving DecidableEq, Repr

/-- `Graph` from `graph.rs`: vertex map and out-adjacency map. -/
structure Graph (T : Type) where
  vertices : List (Nat × GraphVertex T)
  edges : List (Nat × List Nat)
  deriving DecidableEq, Repr

/-- `Graph::new`. -/
def Graph.empty (T : Type) : Graph T := ⟨[], []⟩

/-- `Graph::add_vertex`: insert or overwrite the vertex. -/
def addVertex {T : Type} (g : Graph T) (vertex : Nat) (value : T) : Graph T :=
  { g with vertices := ainsert g.vertices vertex ⟨vertex, value⟩ }

/-- The scrub loop inside `Graph::remove_vertex`: for each out-neighbour of the
removed vertex, `self.edges.get_mut(&neighbour).unwrap().remove(&vertex)`.
`none` models the panic of `unwrap` when the neighbour has no adjacency
entry. -/
def scrubLoop (v : Nat) : List (Nat × List Nat) → List Nat → Option (List (Nat × List Nat))
  | edges, [] => some edges
  | edges, n :: rest =>
    match alookup edges n with
    | none => none
    | some s => scrubLoop v (ainsert edges n (serase s v)) rest

/-- `Graph::remove_vertex`. `none` models the reachable `unwrap` panic. -/
def removeVertex {T : Type} (g : Graph T) (vertex : Nat) : Option (Graph T) :=
  let neighbours := alookup g.edges vertex
  let edges1 := aerase g.edges vertex
  match neighbours with
  | none => some ⟨aerase g.vertices vertex, edges1⟩
  | some ns =>
    match scrubLoop vertex edges1 ns with
    | none => none
    | some edges2 => some ⟨aerase g.vertices vertex, edges2⟩

/-- The error type `VertexNotExistsError`, carrying its formatted message. -/
structure VertexNotExistsError where
  message : String
  deriving DecidableEq, Repr

/-- The message built by `Graph::add_edge` for a missing endpoint. -/
def notExistsMessage (v : Nat) : String :=
  "Vertex " ++ toString v ++ " not exists in graph"

/-- `Graph::add_edge`, modelling `&mut self` plus `Result<(), _>` as a result
paired with the post-state (the early error returns leave the graph as it
was). -/
def addEdge {T : Type} (g : Graph T) (vertexFrom vertexTo : Nat) :
    Except VertexNotExistsError Unit × Graph T :=
  if (alookup g.vertices vertexFrom).isNone then
    (.error ⟨notExistsMessage vertexFrom⟩, g)
  else if (alookup g.vertices vertexTo).isNone then
    (.error ⟨notExistsMessage vertexTo⟩, g)
  else
    (.ok (),
      { g with
        edges := ainsert g.edges vertexFrom
          (sinsert ((alookup g.edges vertexFrom).getD []) vertexTo) })

/-- `Graph::get_vertex`. -/
def getVertex {T : Type} (g : Graph T) (vertexId : Nat) : Option (GraphVertex T) :=
  alookup g.vertices vertexId

/-- `Graph::get_neighbours`: `none` when the vertex is absent, otherwise the
adjacency entry or the empty set. -/
def getNeighbours {T : Type} (g : Graph T) (vertex : Nat) : Option (List Nat) :=
  if (alookup g.vertices vertex).isSome then
    some ((alookup g.edges vertex).getD [])
  else
    none

/-- `Graph::get_vertices_ids`. -/
def getVerticesIds {T : Type} (g : Graph T) : List Nat :=
  g.vertices.map Prod.fst

/-- The set of direct successors of `v`: the adjacency entry, or empty. -/
def succs {T : Type} (g : Graph T) (v : Nat) : List Nat :=
  (alookup g.edges v).getD []

/-- The directed-edge relation of the graph. -/
def edgeRel {T : Type} (g : Graph T) (u w : Nat) : Prop :=
  w ∈ succs g u

instance {T : Type} (g : Graph T) (u w : Nat) : Decidable (edgeRel g u w) := by
  unfold edgeRel; infer_instance

/-- The data-model invariant of the spec: vertex keys are duplicate-free and
each stored vertex records its own key; edge keys are duplicate-free, every
edge endpoint is an existing vertex, and each adjacency entry is a
duplicate-free set. -/
def WF {T : Type} (g : Graph T) : Prop :=
  (g.vertices.map Prod.fst).Nodup ∧
  (∀ p ∈ g.vertices, (p.2).id = p.1) ∧
  (g.edges.map Prod.fst).Nodup ∧
  (∀ p ∈ g.edges, p.1 ∈ getVerticesIds g ∧ (p.2).Nodup ∧
    ∀ x ∈ p.2, x ∈ getVerticesIds g)

instance {T : Type} (g : Graph T) : Decidable (WF g) := by
  unfold WF; infer_instance

/-! ### Basic lemmas about the association-list and set operations -/

theorem alookup_isSome_iff {α : Type} (m : List (Nat × α)) (k : Nat) :
    (alookup m k).isSome = true ↔ k ∈ m.map Prod.fst := by
  induction m with
  | nil => simp [alookup]
  | cons p rest ih =>
    obtain ⟨k', v'⟩ := p
    by_cases h : k' = k <;> simp [alookup, h, ih]
    exact fun hk => (h hk.symm).elim

theorem alookup_eq_none_iff {α : Type} (m : List (Nat × α)) (k : Nat) :
    alookup m k = none ↔ k ∉ m.map Prod.fst := by
  rw [← alookup_isSome_iff]
  cases alookup m k <;> simp

theorem alookup_mem {α : Type} {m : List (Nat × α)} {k : Nat} {v : α}
    (h : alookup m k = some v) : (k, v) ∈ m := by
  induction m with
  | nil => simp [alookup] at h
  | cons p rest ih =>
    obtain ⟨k', v'⟩ := p
    by_cases hk : k' = k
    · subst hk
      simp [alookup] at h
      simp [h]
    · simp [alookup, hk] at h
      exact List.mem_cons_of_mem _ (ih h)

theorem mem_alookup_of_nodup {α : Type} {m : List (Nat × α)} {k : Nat} {v : α}
    (hnd : (m.map Prod.fst).Nodup) (h : (k, v) ∈ m) : alookup m k = some v := by
  induction m with
  | nil => simp at h
  | cons p rest ih =>
    obtain ⟨k', v'⟩ := p
    rw [List.map_cons, List.nodup_cons] at hnd
    rcases List.mem_cons.mp h with h | h
    · cases h
      simp [alookup]
    · have hk : k' ≠ k := by
        intro hkk
        subst hkk
        exact hnd.1 (List.mem_map.mpr ⟨(k', v), h, rfl⟩)
      simp [alookup, hk]
      exact ih hnd.2 h

theorem alookup_ainsert_self {α : Type} (m : List (Nat × α)) (k : Nat) (v : α) :
    alookup (ainsert m k v) k = some v := by
  induction m with
  | nil => simp [ainsert, alookup]
  | cons p rest ih =>
    obtain ⟨k', v'⟩ := p
    by_cases h : k' = k <;> simp [ainsert, h, alookup, ih]

theorem alookup_ainsert_ne {α : Type} (m : List (Nat × α)) (k k' : Nat) (v : α)
    (h : k ≠ k') : alookup (ainsert m k v) k' = alookup m k' := by
  induction m with
  | nil => simp [ainsert, alookup, h]
  | cons p rest ih =>
    obtain ⟨k₀, v₀⟩ := p
    by_cases hk : k₀ = k
    · subst hk
      simp [ainsert, alookup, h, ih]
    · simp [ainsert, hk, alookup, ih]

theorem ainsert_map_fst {α : Type} (m : List (Nat × α)) (k : Nat) (v : α) :
    (ainsert m k v).map Prod.fst =
      if k ∈ m.map Prod.fst then m.map Prod.fst else m.map Prod.fst ++ [k] := by
  induction m with
  | nil => simp [ainsert]
  | cons p rest ih =>
    obtain ⟨k', v'⟩ := p
    by_cases h : k' = k
    · subst h
      simp [ainsert]
    · have h' : ¬ k = k' := fun hk => h hk.symm
      simp only [ainsert, if_neg h, List.map_cons, ih]
      by_cases hm : k ∈ rest.map Prod.fst <;> simp [hm, h']

theorem ainsert_ainsert_same {α : Type} (m : List (Nat × α)) (k : Nat) (v : α) :
    ainsert (ainsert m k v) k v = ainsert m k v := by
  induction m with
  | nil => simp [ainsert]
  | cons p rest ih =>
    obtain ⟨k', v'⟩ := p
    by_cases h : k' = k <;> simp [ainsert, h, ih]

theorem sinsert_of_mem {s : List Nat} {x : Nat} (h : x ∈ s) : sinsert s x = s := by
  simp [sinsert, h]

theorem mem_sinsert (s : List Nat) (x y : Nat) :
    y ∈ sinsert s x ↔ y = x ∨ y ∈ s := by
  by_cases h : x ∈ s
  · simp only [sinsert, if_pos h]
    constructor
    · exact Or.inr
    · rintro (rfl | hy)
      · exact h
      · exact hy
  · simp [sinsert, h, or_comm]

/-! ### Claims C1 and C2: `remove_vertex` -/

/-- C1: the claim says `remove_vertex` is total and never fails, in particular
on a graph where the removed vertex has a successor with no out-edges, and on
a graph with a self-loop.  The code panics on both: the scrub loop calls
`self.edges.get_mut(&neighbour).unwrap()` and the neighbour has no adjacency
entry (in the self-loop case because the entry of the removed vertex itself
was just removed).  Both evaluations below return `none`, the model of the
panic. -/
theorem removeVertex_panics_on_sink_successor_and_self_loop :
    removeVertex (⟨[(1, ⟨1, 0⟩), (2, ⟨2, 0⟩)], [(1, [2])]⟩ : Graph Nat) 1 = none ∧
    removeVertex (⟨[(1, ⟨1, 0⟩)], [(1, [1])]⟩ : Graph Nat) 1 = none := by
  constructor <;> rfl

/-- C2: the claim says that after `remove_vertex(v)` no remaining vertex has
`v` in its successor set.  The code only scrubs `v` from the out-sets of the
vertices `v` itself points to: removing vertex `2` from the graph with
vertices `{1, 2}` and the single edge `1 → 2` succeeds, yet the neighbours of
the surviving vertex `1` still contain the removed vertex `2`. -/
theorem removeVertex_leaves_dangling_edge :
    removeVertex (⟨[(1, ⟨1, 0⟩), (2, ⟨2, 0⟩)], [(1, [2])]⟩ : Graph Nat) 2 =
      some ⟨[(1, ⟨1, 0⟩)], [(1, [2])]⟩ ∧
    getNeighbours (⟨[(1, ⟨1, 0⟩)], [(1, [2])]⟩ : Graph Nat) 1 = some [2] ∧
    2 ∉ getVerticesIds (⟨[(1, ⟨1, 0⟩)], [(1, [2])]⟩ : Graph Nat) := by
  refine ⟨rfl, rfl, ?_⟩
  decide

/-! ### Claim C3: `get_vertex` / `get_neighbours` absence contract -/

/-- C3: `get_vertex(v)` and `get_neighbours(v)` report absent exactly when `v`
is not a vertex; for a present vertex with no out-edges the result is
`some []` (distinct from absent), and in general it is exactly the set of
direct successors. -/
theorem getNeighbours_contract {T : Type} (g : Graph T) (v : Nat) :
    (getVertex g v = none ↔ v ∉ getVerticesIds g) ∧
    (getNeighbours g v = none ↔ v ∉ getVerticesIds g) ∧
    (v ∈ getVerticesIds g → succs g v = [] → getNeighbours g v = some []) ∧
    (v ∈ getVerticesIds g → getNeighbours g v = some (succs g v)) := by
  refine ⟨?_, ?_, ?_, ?_⟩
  · exact alookup_eq_none_iff g.vertices v
  · unfold getNeighbours getVerticesIds
    rcases h : alookup g.vertices v with _ | w
    · simp [h, (alookup_eq_none_iff g.vertices v).mp h]
    · have hv : v ∈ List.map Prod.fst g.vertices := by
        rw [← alookup_isSome_iff (m := g.vertices)]
        simp [h]
      simp [h, hv]
  · intro hv he
    unfold getNeighbours
    unfold getVerticesIds at hv
    rw [← alookup_isSome_iff (m := g.vertices)] at hv
    simp [hv]
    exact he
  · intro hv
    unfold getNeighbours succs
    unfold getVerticesIds at hv
    rw [← alookup_isSome_iff (m := g.vertices)] at hv
    simp [hv]

/-- Witness for C3 at a concrete graph: vertex `1` present with no out-edges
gets `some []`, distinct from the absent marker. -/
theorem getNeighbours_contract_witness :
    1 ∈ getVerticesIds (⟨[(1, ⟨1, 0⟩)], []⟩ : Graph Nat) ∧
    getNeighbours (⟨[(1, ⟨1, 0⟩)], []⟩ : Graph Nat) 1 = some [] :=
  ⟨by decide,
    (getNeighbours_contract (⟨[(1, ⟨1, 0⟩)], []⟩ : Graph Nat) 1).2.2.1
      (by decide) (by rfl)⟩

/-! ### Claim C4: `add_edge` -/

/-- C4: `add_edge(a, b)` fails with a vertex-not-found error naming the
missing endpoint exactly when an endpoint is absent, leaving the graph
unchanged; with both endpoints present it succeeds, inserts `b` into the
successor set of `a` (touching no other adjacency entry and no vertex), and
is idempotent. -/
theorem addEdge_contract {T : Type} (g : Graph T) (a b : Nat) :
    (a ∉ getVerticesIds g →
      addEdge g a b = (.error ⟨notExistsMessage a⟩, g)) ∧
    (a ∈ getVerticesIds g → b ∉ getVerticesIds g →
      addEdge g a b = (.error ⟨notExistsMessage b⟩, g)) ∧
    (a ∈ getVerticesIds g → b ∈ getVerticesIds g →
      (addEdge g a b).1 = .ok () ∧
      (addEdge g a b).2.vertices = g.vertices ∧
      (∀ y, y ∈ succs (addEdge g a b).2 a ↔ y = b ∨ y ∈ succs g a) ∧
      (∀ u, u ≠ a → succs (addEdge g a b).2 u = succs g u) ∧
      addEdge (addEdge g a b).2 a b = (.ok (), (addEdge g a b).2)) := by
  have hmem : ∀ v : Nat, v ∈ getVerticesIds g ↔ (alookup g.vertices v).isSome = true := by
    intro v
    rw [alookup_isSome_iff]
    exact Iff.rfl
  refine ⟨?_, ?_, ?_⟩
  · intro ha
    have h1 : (alookup g.vertices a).isNone = true := by
      rcases h : alookup g.vertices a with _ | w
      · rfl
      · exact absurd ((hmem a).mpr (by simp [h])) ha
    simp [addEdge, h1]
  · intro ha hb
    have h1 : ¬ (alookup g.vertices a).isNone = true := by
      have := (hmem a).mp ha
      rcases h : alookup g.vertices a with _ | w <;> simp [h] at this ⊢
    have h2 : (alookup g.vertices b).isNone = true := by
      rcases h : alookup g.vertices b with _ | w
      · rfl
      · exact absurd ((hmem b).mpr (by simp [h])) hb
    simp [addEdge, h1, h2]
  · intro ha hb
    have h1 : ¬ (alookup g.vertices a).isNone = true := by
      have := (hmem a).mp ha
      rcases h : alookup g.vertices a with _ | w <;> simp [h] at this ⊢
    have h2 : ¬ (alookup g.vertices b).isNone = true := by
      have := (hmem b).mp hb
      rcases h : alookup g.vertices b with _ | w <;> simp [h] at this ⊢
    have hres : addEdge g a b =
        (.ok (), { g with edges := ainsert g.edges a (sinsert (succs g a) b) }) := by
      simp [addEdge, h1, h2, succs]
    refine ⟨by simp [hres], by simp [hres], ?_, ?_, ?_⟩
    · intro y
      rw [hres]
      show y ∈ succs ({ g with edges := ainsert g.edges a (sinsert (succs g a) b) }) a ↔ _
      unfold succs
      simp only [alookup_ainsert_self]
      simpa using mem_sinsert (succs g a) b y
    · intro u hu
      rw [hres]
      show succs ({ g with edges := ainsert g.edges a (sinsert (succs g a) b) }) u = _
      unfold succs
      simp only [alookup_ainsert_ne g.edges a u _ (fun h => hu h.symm)]
    · rw [hres]
      have hb' : b ∈ sinsert (succs g a) b := (mem_sinsert _ _ _).mpr (Or.inl rfl)
      have hsucc : succs ({ g with edges := ainsert g.edges a (sinsert (succs g a) b) }) a =
          sinsert (succs g a) b := by
        unfold succs
        simp [alookup_ainsert_self]
      simp only [addEdge, h1, h2, Bool.false_eq_true, if_false, hsucc]
      have : alookup (ainsert g.edges a (sinsert (succs g a) b)) a =
          some (sinsert (succs g a) b) := alookup_ainsert_self _ _ _
      rw [this]
      simp only [Option.getD_some, sinsert_of_mem hb', ainsert_ainsert_same]

/-- Witness for C4: on the two-vertex graph, adding the edge `1 → 2` succeeds
and is idempotent, and adding `1 → 3` fails naming `3`. -/
theorem addEdge_contract_witness :
    (1 ∈ getVerticesIds (⟨[(1, ⟨1, 0⟩), (2, ⟨2, 0⟩)], []⟩ : Graph Nat) ∧
     2 ∈ getVerticesIds (⟨[(1, ⟨1, 0⟩), (2, ⟨2, 0⟩)], []⟩ : Graph Nat)) ∧
    (addEdge (⟨[(1, ⟨1, 0⟩), (2, ⟨2, 0⟩)], []⟩ : Graph Nat) 1 2).1 = .ok () ∧
    addEdge (⟨[(1, ⟨1, 0⟩), (2, ⟨2, 0⟩)], []⟩ : Graph Nat) 1 3 =
      (.error ⟨notExistsMessage 3⟩, (⟨[(1, ⟨1, 0⟩), (2, ⟨2, 0⟩)], []⟩ : Graph Nat)) := by
  refine ⟨⟨by decide, by decide⟩, ?_, ?_⟩
  · exact ((addEdge_contract (⟨[(1, ⟨1, 0⟩), (2, ⟨2, 0⟩)], []⟩ : Graph Nat) 1 2).2.2
      (by decide) (by decide)).1
  · exact (addEdge_contract (⟨[(1, ⟨1, 0⟩), (2, ⟨2, 0⟩)], []⟩ : Graph Nat) 1 3).2.1
      (by decide) (by decide)

/-! ### The text codec (`Graph::read_from` and `impl Display for Graph`) -/

/-- Rust's `char::is_whitespace`: the Unicode White_Space property (the set
`str::trim` strips from both ends), listed by code point. -/
def isRustWhitespace (c : Char) : Bool :=
  decide (c.toNat ∈ ([0x9, 0xA, 0xB, 0xC, 0xD, 0x20, 0x85, 0xA0, 0x1680,
    0x2000, 0x2001, 0x2002, 0x2003, 0x2004, 0x2005, 0x2006, 0x2007, 0x2008,
    0x2009, 0x200A, 0x2028, 0x2029, 0x202F, 0x205F, 0x3000] : List Nat))

/-- `str::trim` on the characters of a line: drop Unicode whitespace from
both ends. -/
def trimChars (l : List Char) : List Char :=
  ((l.dropWhile isRustWhitespace).reverse.dropWhile isRustWhitespace).reverse

/-- Split at the first space: `splitn(2, ' ')` yields two parts exactly when a
space occurs, with the second part the untouched remainder. -/
def splitFirstSpace : List Char → Option (List Char × List Char)
  | [] => none
  | c :: cs =>
    if c = ' ' then some ([], cs)
    else
      match splitFirstSpace cs with
      | none => none
      | some (a, b) => some (c :: a, b)

/-- The decimal digit character for `d < 10`. -/
def digitChar (d : Nat) : Char := Char.ofNat (48 + d)

/-- Fuel-driven decimal printing (structural, so that the kernel can
evaluate it; the fuel is always sufficient below). -/
def natDigitsF : Nat → Nat → List Char
  | 0, _ => []
  | fuel + 1, n =>
    if n < 10 then [digitChar n]
    else natDigitsF fuel (n / 10) ++ [digitChar (n % 10)]

/-- Decimal printing of a natural number, as `Display for usize` emits it. -/
def natDigits (n : Nat) : List Char := natDigitsF (n + 1) n

/-- Numeric value of a digit character. -/
def digitVal (c : Char) : Nat := c.toNat - 48

/-- Parse a nonempty all-digit token. -/
def parseDigitsOnly (ds : List Char) : Option Nat :=
  if ds ≠ [] ∧ ds.all Char.isDigit = true then
    some (ds.foldl (fun acc c => 10 * acc + digitVal c) 0)
  else none

/-- `usize::from_str`: an optional leading `+`, then decimal digits. -/
def parseNatChars (cs : List Char) : Option Nat :=
  match cs with
  | c :: rest => if c = '+' then parseDigitsOnly rest else parseDigitsOnly (c :: rest)
  | [] => none

/-- `i32::from_str`: an optional sign, then decimal digits (overflow is not
modelled; the verified inputs are tiny). -/
def parseIntChars (cs : List Char) : Option Int :=
  match cs with
  | '+' :: rest => (parseDigitsOnly rest).map Int.ofNat
  | '-' :: rest => (parseDigitsOnly rest).map fun n => -(n : Int)
  | _ => (parseDigitsOnly cs).map Int.ofNat

/-- The `FromStr`/`Display` pair of the generic value type. -/
structure ValueCodec (T : Type) where
  printV : T → List Char
  parseV : List Char → Option T

/-- `GraphParseError` without the I/O constructor (no I/O failures arise from
an in-memory reader): wrong token count, unparsable id, unparsable value, and
the wrapped `VertexNotExistsError` from `add_edge` during edge parsing. -/
inductive GraphParseError where
  | dataError (expected got : Nat)
  | vertexParseError
  | valueParseError
  | vertexNotExists (message : String)
  deriving DecidableEq, Repr

/-- The vertex-section loop of `Graph::read_from`: one trimmed line per
iteration, stopping at `"#"` or an empty line (also the model of EOF). -/
def readVertices {T : Type} (codec : ValueCodec T) :
    Graph T → List (List Char) → Except GraphParseError (Graph T × List (List Char))
  | g, [] => .ok (g, [])
  | g, l :: rest =>
    if trimChars l = ['#'] ∨ trimChars l = [] then .ok (g, rest)
    else
      match splitFirstSpace (trimChars l) with
      | none => .error (.dataError 2 1)
      | some (t0, t1) =>
        match parseNatChars t0 with
        | none => .error .vertexParseError
        | some vid =>
          match codec.parseV t1 with
          | none => .error .valueParseError
          | some value => readVertices codec (addVertex g vid value) rest

/-- The second element of `splitn(3, ' ')`: the text between the first and
second space, or the whole remainder when no second space occurs. -/
def sndToken (r : List Char) : List Char :=
  match splitFirstSpace r with
  | none => r
  | some (t1', _) => t1'

/-- The edge-section loop of `Graph::read_from`: `splitn(3, ' ')` keeps the
first two tokens (trailing text ignored), both parsed as ids, then
`add_edge`. -/
def readEdges {T : Type} : Graph T → List (List Char) → Except GraphParseError (Graph T)
  | g, [] => .ok g
  | g, l :: rest =>
    if trimChars l = [] then .ok g
    else
      match splitFirstSpace (trimChars l) with
      | none => .error (.dataError 2 1)
      | some (t0, r) =>
        match parseNatChars t0 with
        | none => .error .vertexParseError
        | some vfrom =>
          match parseNatChars (sndToken r) with
          | none => .error .vertexParseError
          | some vto =>
            match addEdge g vfrom vto with
            | (.error e, _) => .error (.vertexNotExists e.message)
            | (.ok _, g') => readEdges g' rest

/-- `Graph::read_from` on a sequence of lines. -/
def readFromLines {T : Type} (codec : ValueCodec T) (lines : List (List Char)) :
    Except GraphParseError (Graph T) :=
  match readVertices codec (Graph.empty T) lines with
  | .error e => .error e
  | .ok (g, rest) => readEdges g rest

/-- Split a character stream into the successive `read_line` results (without
their terminating newline; a trailing newline yields no extra empty line,
matching the empty read at EOF). -/
def splitLinesAux (acc : List Char) : List Char → List (List Char)
  | [] => if acc = [] then [] else [acc.reverse]
  | c :: rest =>
    if c = '\n' then acc.reverse :: splitLinesAux [] rest
    else splitLinesAux (c :: acc) rest

/-- The line decomposition of a character stream. -/
def splitLines (cs : List Char) : List (List Char) := splitLinesAux [] cs

/-- `Graph::read_from` on a raw character stream. -/
def readFromText {T : Type} (codec : ValueCodec T) (cs : List Char) :
    Except GraphParseError (Graph T) :=
  readFromLines codec (splitLines cs)

/-- One vertex line of `Display for Graph`: `"{id} {value}"`, printing the
stored vertex id. -/
def vertexLineChars {T : Type} (codec : ValueCodec T) (p : Nat × GraphVertex T) :
    List Char :=
  natDigits (p.2).id ++ ' ' :: codec.printV (p.2).value

/-- The edge lines of `Display for Graph`: one `"{from} {to}"` line per pair,
grouped by source entry. -/
def edgeLinesChars (edges : List (Nat × List Nat)) : List (List Char) :=
  edges.flatMap fun p => (p.2).map fun u => natDigits p.1 ++ ' ' :: natDigits u

/-- The line sequence written by `Display for Graph`. -/
def formatLines {T : Type} (codec : ValueCodec T) (g : Graph T) : List (List Char) :=
  g.vertices.map (vertexLineChars codec) ++ [['#']] ++ edgeLinesChars g.edges

/-- The full text written by `Display for Graph` (each line newline
terminated, as `writeln!` emits it). -/
def formatText {T : Type} (codec : ValueCodec T) (g : Graph T) : List Char :=
  (formatLines codec g).flatMap fun l => l ++ ['\n']

/-- The value codec of `i32`. -/
def intCodec : ValueCodec Int :=
  ⟨fun t => (toString t).data, parseIntChars⟩

/-- The value codec of `String` (`String::from_str` is the infallible
identity). -/
def stringCodec : ValueCodec String :=
  ⟨String.data, fun cs => some (String.mk cs)⟩

/-! ### Claim C9: the three malformed inputs and their error kinds -/

/-- C9: with `i32` values, `"1 1\n2 kek\n#\n1 2\n"` fails with the
malformed-value kind, `"1 1\n2 2\n#\n1 w\n"` fails with malformed-integer
(the second edge token parsed as an id), and `"1 1\n2 2\n#\n1\n"` fails with
malformed-line, reporting two expected tokens and one found. -/
theorem readFrom_error_kinds :
    readFromText intCodec "1 1\n2 kek\n#\n1 2\n".data = .error .valueParseError ∧
    readFromText intCodec "1 1\n2 2\n#\n1 w\n".data = .error .vertexParseError ∧
    readFromText intCodec "1 1\n2 2\n#\n1\n".data = .error (.dataError 2 1) := by
  refine ⟨?_, ?_, ?_⟩ <;> rfl

/-! ### Decimal printing and parsing round-trip -/

theorem natDigitsF_fuel_irrel :
    ∀ fuel : Nat, ∀ fuel' n : Nat, n < fuel → n < fuel' →
      natDigitsF fuel n = natDigitsF fuel' n := by
  intro fuel
  induction fuel with
  | zero => intro fuel' n h _; exact absurd h (Nat.not_lt_zero n)
  | succ f ih =>
    intro fuel' n h h'
    cases fuel' with
    | zero => exact absurd h' (Nat.not_lt_zero n)
    | succ f' =>
      show (if n < 10 then [digitChar n] else natDigitsF f (n / 10) ++ [digitChar (n % 10)]) =
        (if n < 10 then [digitChar n] else natDigitsF f' (n / 10) ++ [digitChar (n % 10)])
      by_cases h10 : n < 10
      · rw [if_pos h10, if_pos h10]
      · rw [if_neg h10, if_neg h10]
        have h0 : 0 < n := Nat.lt_of_lt_of_le (by norm_num) (Nat.le_of_not_lt h10)
        have hdiv : n / 10 < n := Nat.div_lt_self h0 (by norm_num)
        rw [ih f' (n / 10) (Nat.lt_of_lt_of_le hdiv (Nat.le_of_lt_succ h))
          (Nat.lt_of_lt_of_le hdiv (Nat.le_of_lt_succ h'))]

theorem natDigits_eq (n : Nat) :
    natDigits n = if n < 10 then [digitChar n]
      else natDigits (n / 10) ++ [digitChar (n % 10)] := by
  show (if n < 10 then [digitChar n] else natDigitsF n (n / 10) ++ [digitChar (n % 10)]) = _
  by_cases h : n < 10
  · rw [if_pos h, if_pos h]
  · rw [if_neg h, if_neg h]
    have h0 : 0 < n := Nat.lt_of_lt_of_le (by norm_num) (Nat.le_of_not_lt h)
    have hdiv : n / 10 < n := Nat.div_lt_self h0 (by norm_num)
    rw [natDigitsF_fuel_irrel n (n / 10 + 1) (n / 10) hdiv (Nat.lt_succ_self _)]
    rfl

theorem digitChar_props (d : Nat) (h : d < 10) :
    (digitChar d).isDigit = true ∧ digitVal (digitChar d) = d ∧
    isRustWhitespace (digitChar d) = false ∧ digitChar d ≠ '+' ∧
    digitChar d ≠ ' ' ∧ digitChar d ≠ '\n' ∧ digitChar d ≠ '#' := by
  interval_cases d <;>
    exact ⟨rfl, rfl, by decide, by decide, by decide, by decide, by decide⟩

theorem natDigits_mem (n : Nat) : ∀ c ∈ natDigits n, ∃ d, d < 10 ∧ c = digitChar d := by
  induction n using Nat.strong_induction_on with
  | _ n ih =>
    intro c hc
    rw [natDigits_eq] at hc
    by_cases h : n < 10
    · rw [if_pos h] at hc
      exact ⟨n, h, (List.mem_singleton.mp hc)⟩
    · rw [if_neg h] at hc
      rcases List.mem_append.mp hc with hc | hc
      · have h0 : 0 < n := Nat.lt_of_lt_of_le (by norm_num) (Nat.le_of_not_lt h)
        exact ih (n / 10) (Nat.div_lt_self h0 (by norm_num)) c hc
      · exact ⟨n % 10, Nat.mod_lt n (by norm_num), List.mem_singleton.mp hc⟩

theorem natDigits_ne_nil (n : Nat) : natDigits n ≠ [] := by
  rw [natDigits_eq]
  by_cases h : n < 10
  · rw [if_pos h]; simp
  · rw [if_neg h]; simp

theorem natDigits_chars (n : Nat) :
    ∀ c ∈ natDigits n, c.isDigit = true ∧ isRustWhitespace c = false ∧
      c ≠ '+' ∧ c ≠ ' ' ∧ c ≠ '\n' ∧ c ≠ '#' := by
  intro c hc
  obtain ⟨d, hd, rfl⟩ := natDigits_mem n c hc
  have h := digitChar_props d hd
  exact ⟨h.1, h.2.2.1, h.2.2.2.1, h.2.2.2.2.1, h.2.2.2.2.2.1, h.2.2.2.2.2.2⟩

theorem foldl_natDigits (n : Nat) : ∀ a : Nat,
    (natDigits n).foldl (fun acc c => 10 * acc + digitVal c) a =
      a * 10 ^ (natDigits n).length + n := by
  induction n using Nat.strong_induction_on with
  | _ n ih =>
    intro a
    rw [natDigits_eq]
    by_cases h : n < 10
    · rw [if_pos h]
      simp [List.foldl, (digitChar_props n h).2.1]
      ring
    · rw [if_neg h]
      have h0 : 0 < n := Nat.lt_of_lt_of_le (by norm_num) (Nat.le_of_not_lt h)
      rw [List.foldl_append]
      rw [ih (n / 10) (Nat.div_lt_self h0 (by norm_num)) a]
      simp [List.foldl, (digitChar_props (n % 10) (Nat.mod_lt n (by norm_num))).2.1]
      have hdm : 10 * (n / 10) + n % 10 = n := Nat.div_add_mod n 10
      have key : ∀ k a m r q : Nat, 10 * q + r = m →
          10 * (a * 10 ^ k + q) + r = a * 10 ^ (k + 1) + m := by
        intro k a m r q hqr
        rw [pow_succ, ← hqr]
        ring
      exact key _ a n (n % 10) (n / 10) hdm

theorem parseDigitsOnly_natDigits (n : Nat) : parseDigitsOnly (natDigits n) = some n := by
  unfold parseDigitsOnly
  have hne : natDigits n ≠ [] := natDigits_ne_nil n
  have hall : (natDigits n).all Char.isDigit = true := by
    rw [List.all_eq_true]
    exact fun c hc => (natDigits_chars n c hc).1
  rw [if_pos ⟨hne, hall⟩, foldl_natDigits n 0]
  simp

theorem parseNatChars_natDigits (n : Nat) : parseNatChars (natDigits n) = some n := by
  obtain ⟨c, cs, hcons⟩ := List.exists_cons_of_ne_nil (natDigits_ne_nil n)
  have hc : c ≠ '+' := by
    have hm := natDigits_chars n c (by rw [hcons]; exact List.mem_cons_self c cs)
    exact hm.2.2.1
  have hval : parseDigitsOnly (c :: cs) = some n := by
    rw [← hcons]; exact parseDigitsOnly_natDigits n
  rw [hcons]
  have hred : parseNatChars (c :: cs) =
      if c = '+' then parseDigitsOnly cs else parseDigitsOnly (c :: cs) := rfl
  rw [hred, if_neg hc]
  exact hval

/-! ### Line-shape lemmas for the round-trip -/

/-- A printed value that survives the per-line `trim` of the parser: nonempty,
newline-free, and not ending in whitespace. -/
def GoodValue (w : List Char) : Prop :=
  w ≠ [] ∧ '\n' ∉ w ∧ (w.getLast?.all fun c => ! isRustWhitespace c) = true

instance (w : List Char) : Decidable (GoodValue w) := by
  unfold GoodValue; infer_instance

theorem goodValue_last {w : List Char} (h : GoodValue w) :
    ∀ c, w.getLast? = some c → isRustWhitespace c = false := by
  intro c hc
  have h3 := h.2.2
  rw [hc] at h3
  simp [Option.all_some] at h3
  simp [h3]

theorem trimChars_eq_self {l : List Char}
    (hhead : ∀ c, l.head? = some c → isRustWhitespace c = false)
    (hlast : ∀ c, l.getLast? = some c → isRustWhitespace c = false) :
    trimChars l = l := by
  unfold trimChars
  have h1 : l.dropWhile isRustWhitespace = l := by
    cases l with
    | nil => rfl
    | cons c rest =>
      have hc := hhead c rfl
      rw [List.dropWhile_cons_of_neg (by simp [hc])]
  rw [h1]
  have h2 : l.reverse.dropWhile isRustWhitespace = l.reverse := by
    cases hr : l.reverse with
    | nil => rfl
    | cons c rest =>
      have hlc : l.getLast? = some c := by
        rw [← List.head?_reverse, hr]; rfl
      have hc := hlast c hlc
      rw [List.dropWhile_cons_of_neg (by simp [hc])]
  rw [h2, List.reverse_reverse]

theorem splitFirstSpace_no_space (l : List Char) (h : ∀ c ∈ l, c ≠ ' ') :
    splitFirstSpace l = none := by
  induction l with
  | nil => rfl
  | cons c rest ih =>
    unfold splitFirstSpace
    rw [if_neg (h c (List.mem_cons_self c rest))]
    rw [ih fun x hx => h x (List.mem_cons_of_mem c hx)]

theorem splitFirstSpace_append (a w : List Char) (h : ∀ c ∈ a, c ≠ ' ') :
    splitFirstSpace (a ++ ' ' :: w) = some (a, w) := by
  induction a with
  | nil =>
    show splitFirstSpace (' ' :: w) = some ([], w)
    unfold splitFirstSpace
    rw [if_pos rfl]
  | cons c rest ih =>
    show splitFirstSpace (c :: (rest ++ ' ' :: w)) = some (c :: rest, w)
    unfold splitFirstSpace
    rw [if_neg (h c (List.mem_cons_self c rest))]
    rw [ih fun x hx => h x (List.mem_cons_of_mem c hx)]

theorem sndToken_no_space (r : List Char) (h : ∀ c ∈ r, c ≠ ' ') :
    sndToken r = r := by
  unfold sndToken
  rw [splitFirstSpace_no_space r h]

/-- The shape facts about a line `"{a} {w}"` with a well-behaved tail `w`. -/
theorem idLine_facts (a : Nat) (w : List Char) (hwne : w ≠ [])
    (hwlast : ∀ c, w.getLast? = some c → isRustWhitespace c = false) :
    trimChars (natDigits a ++ ' ' :: w) = natDigits a ++ ' ' :: w ∧
    ¬(trimChars (natDigits a ++ ' ' :: w) = ['#'] ∨
      trimChars (natDigits a ++ ' ' :: w) = []) ∧
    splitFirstSpace (natDigits a ++ ' ' :: w) = some (natDigits a, w) := by
  obtain ⟨c, cs, hcons⟩ := List.exists_cons_of_ne_nil (natDigits_ne_nil a)
  have hcprops := natDigits_chars a c (by rw [hcons]; exact List.mem_cons_self c cs)
  have htrim : trimChars (natDigits a ++ ' ' :: w) = natDigits a ++ ' ' :: w := by
    apply trimChars_eq_self
    · intro x hx
      rw [hcons] at hx
      simp at hx
      rw [← hx]
      exact hcprops.2.1
    · intro x hx
      rw [List.getLast?_append_of_ne_nil _ (by simp)] at hx
      obtain ⟨y, w', hw⟩ := List.exists_cons_of_ne_nil hwne
      rw [hw, List.getLast?_cons_cons] at hx
      apply hwlast
      rw [hw]
      exact hx
  refine ⟨htrim, ?_, ?_⟩
  · rw [htrim, hcons]
    push_neg
    constructor
    · intro hbad
      rw [List.cons_append] at hbad
      have hch : c = '#' := by injection hbad
      exact hcprops.2.2.2.2.2 hch
    · simp
  · exact splitFirstSpace_append _ _ fun x hx => (natDigits_chars a x hx).2.2.2.1

/-! ### One-line reductions of the two parser loops -/

theorem readVertices_cons_idLine {T : Type} (codec : ValueCodec T) (g : Graph T)
    (a : Nat) (w : List Char) (t : T) (rest : List (List Char)) (hwne : w ≠ [])
    (hwlast : ∀ c, w.getLast? = some c → isRustWhitespace c = false)
    (hparse : codec.parseV w = some t) :
    readVertices codec g ((natDigits a ++ ' ' :: w) :: rest) =
      readVertices codec (addVertex g a t) rest := by
  obtain ⟨htrim, hcond, hsplit⟩ := idLine_facts a w hwne hwlast
  rw [htrim] at hcond
  simp only [readVertices, htrim]
  rw [if_neg hcond, hsplit]
  simp [parseNatChars_natDigits, hparse]

theorem readVertices_hash {T : Type} (codec : ValueCodec T) (g : Graph T)
    (rest : List (List Char)) :
    readVertices codec g (['#'] :: rest) = .ok (g, rest) := by
  simp only [readVertices]
  rw [if_pos]
  left
  rfl

theorem readEdges_cons_edgeLine {T : Type} (g : Graph T) (a b : Nat)
    (rest : List (List Char)) (ha : a ∈ getVerticesIds g) (hb : b ∈ getVerticesIds g) :
    readEdges g ((natDigits a ++ ' ' :: natDigits b) :: rest) =
      readEdges { g with edges := ainsert g.edges a (sinsert (succs g a) b) } rest := by
  obtain ⟨htrim, hcond, hsplit⟩ := idLine_facts a (natDigits b) (natDigits_ne_nil b)
    (by
      intro c hc
      have hm : c ∈ natDigits b := by
        rcases List.exists_cons_of_ne_nil (natDigits_ne_nil b) with ⟨y, ys, hy⟩
        rw [hy] at hc ⊢
        exact List.mem_of_mem_getLast? hc
      exact (natDigits_chars b c hm).2.1)
  have hsnd : sndToken (natDigits b) = natDigits b :=
    sndToken_no_space _ fun x hx => (natDigits_chars b x hx).2.2.2.1
  have hok : addEdge g a b =
      (.ok (), { g with edges := ainsert g.edges a (sinsert (succs g a) b) }) := by
    have h1 : ¬ (alookup g.vertices a).isNone = true := by
      have hs : (alookup g.vertices a).isSome = true := (alookup_isSome_iff _ _).mpr ha
      rcases h : alookup g.vertices a with _ | v <;> simp [h] at hs ⊢
    have h2 : ¬ (alookup g.vertices b).isNone = true := by
      have hs : (alookup g.vertices b).isSome = true := (alookup_isSome_iff _ _).mpr hb
      rcases h : alookup g.vertices b with _ | v <;> simp [h] at hs ⊢
    simp [addEdge, h1, h2, succs]
  rw [htrim] at hcond
  simp only [readEdges, htrim]
  rw [if_neg (fun hbad => hcond (Or.inr hbad)), hsplit]
  simp [parseNatChars_natDigits, hsnd, hok]

theorem readEdges_nil {T : Type} (g : Graph T) : readEdges g [] = .ok g := rfl

/-! ### Splitting the formatted text back into lines -/

theorem splitLinesAux_no_newline (l : List Char) (hl : '\n' ∉ l) :
    ∀ acc cs, splitLinesAux acc (l ++ cs) = splitLinesAux (l.reverse ++ acc) cs := by
  induction l with
  | nil => intro acc cs; simp
  | cons c rest ih =>
    intro acc cs
    have hc : ¬ (c = '\n') := fun h => hl (h ▸ List.mem_cons_self c rest)
    show splitLinesAux acc (c :: (rest ++ cs)) = splitLinesAux ((c :: rest).reverse ++ acc) cs
    have hstep : splitLinesAux acc (c :: (rest ++ cs)) =
        if c = '\n' then acc.reverse :: splitLinesAux [] (rest ++ cs)
        else splitLinesAux (c :: acc) (rest ++ cs) := rfl
    rw [hstep, if_neg hc, ih (fun h => hl (List.mem_cons_of_mem c h)) (c :: acc) cs]
    simp

theorem splitLines_line_cons (l : List Char) (hl : '\n' ∉ l) (cs : List Char) :
    splitLines (l ++ '\n' :: cs) = l :: splitLines cs := by
  unfold splitLines
  rw [splitLinesAux_no_newline l hl [] ('\n' :: cs)]
  have hstep : splitLinesAux (l.reverse ++ []) ('\n' :: cs) =
      if ('\n' : Char) = '\n' then (l.reverse ++ []).reverse :: splitLinesAux [] cs
      else splitLinesAux ('\n' :: (l.reverse ++ [])) cs := rfl
  rw [hstep, if_pos rfl]
  simp

theorem splitLines_joined (ls : List (List Char)) (h : ∀ l ∈ ls, '\n' ∉ l) :
    splitLines (ls.flatMap fun l => l ++ ['\n']) = ls := by
  induction ls with
  | nil => rfl
  | cons l rest ih =>
    rw [List.flatMap_cons, List.append_assoc]
    show splitLines (l ++ '\n' :: rest.flatMap fun x => x ++ ['\n']) = l :: rest
    rw [splitLines_line_cons l (h l (List.mem_cons_self l rest))]
    rw [ih fun x hx => h x (List.mem_cons_of_mem l hx)]

/-! ### Claim C10: vertex-line splitting -/

/-- C10 counterexample: the whole line is trimmed before the first-space
split, so a value text with trailing whitespace is not bound verbatim.  The
`String` parser accepts `"a "`, yet parsing the vertex line `"1 a "` binds
the value `"a"`. -/
theorem idLine_trailing_space_not_preserved :
    stringCodec.parseV "a ".data = some "a " ∧
    readFromText stringCodec "1 a \n#\n".data = .ok ⟨[(1, ⟨1, "a"⟩)], []⟩ ∧
    ("a" : String) ≠ "a " := by
  refine ⟨rfl, rfl, by decide⟩

/-- C10 (amended): for every id `n` and every value text `w` accepted by the
value parser that is nonempty, newline-free and does not end in whitespace,
parsing the vertex line `"{n} {w}"` splits on the first space (`w` may itself
contain spaces) and binds the vertex's value to the parse of exactly `w`. -/
theorem idLine_parse_binds_value {T : Type} (codec : ValueCodec T) (n : Nat)
    (w : List Char) (t : T) (hgood : GoodValue w)
    (hparse : codec.parseV w = some t) :
    readFromText codec ((natDigits n ++ ' ' :: w) ++ '\n' :: ['#', '\n']) =
      .ok ⟨[(n, ⟨n, t⟩)], []⟩ := by
  have hline : '\n' ∉ natDigits n ++ ' ' :: w := by
    intro hmem
    rcases List.mem_append.mp hmem with hmem | hmem
    · exact (natDigits_chars n _ hmem).2.2.2.2.1 rfl
    · rcases List.mem_cons.mp hmem with hmem | hmem
      · exact absurd hmem.symm (by decide)
      · exact hgood.2.1 hmem
  unfold readFromText
  have hsplit2 : ('\n' :: ['#', '\n'] : List Char) = '\n' :: (['#'] ++ '\n' :: []) := rfl
  rw [hsplit2, splitLines_line_cons _ hline, splitLines_line_cons ['#'] (by decide)]
  have hnil : splitLines [] = [] := rfl
  rw [hnil]
  unfold readFromLines
  rw [readVertices_cons_idLine codec (Graph.empty T) n w t [['#']] hgood.1
    (goodValue_last hgood) hparse]
  rw [readVertices_hash]
  rfl

/-- Witness for the amended C10 at a value text containing a space. -/
theorem idLine_parse_binds_value_witness :
    GoodValue "a b".data ∧ stringCodec.parseV "a b".data = some "a b" ∧
    readFromText stringCodec ((natDigits 1 ++ ' ' :: "a b".data) ++ '\n' :: ['#', '\n']) =
      .ok ⟨[(1, ⟨1, "a b"⟩)], []⟩ :=
  ⟨by decide, rfl,
    idLine_parse_binds_value stringCodec 1 "a b".data "a b" (by decide) rfl⟩

/-! ### Claim C5: the format/parse round-trip -/

theorem ainsert_of_not_mem {α : Type} (m : List (Nat × α)) (k : Nat) (v : α)
    (h : k ∉ m.map Prod.fst) : ainsert m k v = m ++ [(k, v)] := by
  induction m with
  | nil => rfl
  | cons p rest ih =>
    obtain ⟨k', v'⟩ := p
    have hk : ¬ (k' = k) := by
      intro hkk
      exact h (by simp [hkk])
    show ainsert ((k', v') :: rest) k v = (k', v') :: rest ++ [(k, v)]
    unfold ainsert
    rw [if_neg hk, ih fun hm => h (by simp [hm]), List.cons_append]

theorem foldl_addVertex_eq {T : Type} (vl : List (Nat × GraphVertex T))
    (hid : ∀ p ∈ vl, (p.2).id = p.1) (hnd : (vl.map Prod.fst).Nodup) :
    ∀ g0 : Graph T, (∀ k ∈ vl.map Prod.fst, k ∉ g0.vertices.map Prod.fst) →
      vl.foldl (fun g p => addVertex g p.1 (p.2).value) g0 =
        ⟨g0.vertices ++ vl, g0.edges⟩ := by
  induction vl with
  | nil => intro g0 _; cases g0; simp
  | cons p vl' ih =>
    intro g0 hdisj
    obtain ⟨k, vx⟩ := p
    have hkid : vx.id = k := hid (k, vx) (List.mem_cons_self _ _)
    have hveq : (⟨k, vx.value⟩ : GraphVertex T) = vx := by
      cases vx
      simp at hkid ⊢
      exact hkid.symm
    rw [List.map_cons, List.nodup_cons] at hnd
    have hstep : addVertex g0 k vx.value = ⟨g0.vertices ++ [(k, vx)], g0.edges⟩ := by
      unfold addVertex
      rw [hveq, ainsert_of_not_mem _ _ _ (hdisj k (by simp))]
    show List.foldl _ (addVertex g0 k vx.value) vl' = _
    rw [hstep]
    rw [ih (fun q hq => hid q (List.mem_cons_of_mem _ hq)) hnd.2
      ⟨g0.vertices ++ [(k, vx)], g0.edges⟩
      (by
        intro k' hk'
        rw [List.map_append]
        intro hm
        rcases List.mem_append.mp hm with hm | hm
        · exact hdisj k' (List.mem_cons_of_mem _ hk') hm
        · simp at hm
          exact hnd.1 (hm ▸ hk'))]
    simp

theorem readVertices_vertexLines {T : Type} (codec : ValueCodec T)
    (vl : List (Nat × GraphVertex T))
    (h : ∀ p ∈ vl, (p.2).id = p.1 ∧ GoodValue (codec.printV (p.2).value) ∧
        codec.parseV (codec.printV (p.2).value) = some (p.2).value) :
    ∀ (g : Graph T) (rest : List (List Char)),
      readVertices codec g (vl.map (vertexLineChars codec) ++ rest) =
        readVertices codec (vl.foldl (fun g p => addVertex g p.1 (p.2).value) g) rest := by
  induction vl with
  | nil => intro g rest; rfl
  | cons p vl' ih =>
    intro g rest
    obtain ⟨hpid, hpgood, hpparse⟩ := h p (List.mem_cons_self _ _)
    have hline : vertexLineChars codec p = natDigits p.1 ++ ' ' :: codec.printV (p.2).value := by
      unfold vertexLineChars
      rw [hpid]
    rw [List.map_cons, List.cons_append, hline]
    rw [readVertices_cons_idLine codec g p.1 _ (p.2).value _ hpgood.1
      (goodValue_last hpgood) hpparse]
    exact ih (fun q hq => h q (List.mem_cons_of_mem _ hq)) _ rest

/-- The edge pairs written by `Display`, in output order. -/
def edgePairs (edges : List (Nat × List Nat)) : List (Nat × Nat) :=
  edges.flatMap fun p => (p.2).map fun u => (p.1, u)

theorem edgeLinesChars_eq_map (edges : List (Nat × List Nat)) :
    edgeLinesChars edges =
      (edgePairs edges).map fun q => natDigits q.1 ++ ' ' :: natDigits q.2 := by
  unfold edgeLinesChars edgePairs
  induction edges with
  | nil => rfl
  | cons p rest ih =>
    rw [List.flatMap_cons, List.flatMap_cons, List.map_append, ih, List.map_map]
    rfl

theorem mem_edgePairs (edges : List (Nat × List Nat)) (a b : Nat) :
    (a, b) ∈ edgePairs edges ↔ ∃ ns, (a, ns) ∈ edges ∧ b ∈ ns := by
  unfold edgePairs
  rw [List.mem_flatMap]
  constructor
  · rintro ⟨p, hp, hm⟩
    rw [List.mem_map] at hm
    obtain ⟨u, hu, heq⟩ := hm
    obtain ⟨ha, hb⟩ := Prod.mk.injEq .. ▸ heq
    exact ⟨p.2, by rw [← ha]; exact (by cases p; exact hp), hb ▸ hu⟩
  · rintro ⟨ns, hns, hb⟩
    exact ⟨(a, ns), hns, List.mem_map.mpr ⟨b, hb, rfl⟩⟩

theorem edgeRel_update {T : Type} (g : Graph T) (a b u w : Nat) :
    edgeRel { g with edges := ainsert g.edges a (sinsert (succs g a) b) } u w ↔
      edgeRel g u w ∨ (u = a ∧ w = b) := by
  unfold edgeRel
  by_cases hu : u = a
  · subst hu
    show w ∈ succs _ u ↔ _
    unfold succs
    rw [alookup_ainsert_self]
    simp only [Option.getD_some]
    rw [mem_sinsert]
    simp [or_comm]
  · show w ∈ succs _ u ↔ _
    unfold succs
    rw [alookup_ainsert_ne _ _ _ _ fun h => hu h.symm]
    simp [hu]

theorem readEdges_pairs {T : Type} :
    ∀ (pairs : List (Nat × Nat)) (g : Graph T),
      (∀ q ∈ pairs, q.1 ∈ getVerticesIds g ∧ q.2 ∈ getVerticesIds g) →
      ∃ gF, readEdges g (pairs.map fun q => natDigits q.1 ++ ' ' :: natDigits q.2) = .ok gF ∧
        gF.vertices = g.vertices ∧
        (∀ a b, edgeRel gF a b ↔ edgeRel g a b ∨ (a, b) ∈ pairs) := by
  intro pairs
  induction pairs with
  | nil =>
    intro g _
    exact ⟨g, rfl, rfl, fun a b => by simp⟩
  | cons q pairs' ih =>
    intro g hq
    obtain ⟨hq1, hq2⟩ := hq q (List.mem_cons_self _ _)
    rw [List.map_cons]
    rw [readEdges_cons_edgeLine g q.1 q.2 _ hq1 hq2]
    have hids : getVerticesIds { g with edges := ainsert g.edges q.1 (sinsert (succs g q.1) q.2) } =
        getVerticesIds g := rfl
    obtain ⟨gF, hrun, hvert, hrel⟩ := ih
      { g with edges := ainsert g.edges q.1 (sinsert (succs g q.1) q.2) }
      (fun r hr => by
        rw [hids]
        exact hq r (List.mem_cons_of_mem _ hr))
    refine ⟨gF, hrun, hvert, ?_⟩
    intro a b
    rw [hrel a b, edgeRel_update]
    constructor
    · rintro ((hg | ⟨rfl, rfl⟩) | hp)
      · exact Or.inl hg
      · exact Or.inr (List.mem_cons_self _ _)
      · exact Or.inr (List.mem_cons_of_mem _ hp)
    · rintro (hg | hp)
      · exact Or.inl (Or.inl hg)
      · rcases List.mem_cons.mp hp with hp | hp
        · obtain ⟨h1, h2⟩ := Prod.mk.injEq .. ▸ (hp : (a, b) = q)
          exact Or.inl (Or.inr ⟨h1, h2⟩)
        · exact Or.inr hp

/-- C5 counterexample: `String` values round-trip losslessly through their
own print/parse pair, and the graph below has no adjacency anomalies (it is
well-formed with no edges at all), yet `parse(format(G))` yields a different
value at id `1`: the per-line `trim` of the parser drops the trailing space
of the printed value `"a "`. -/
theorem roundTrip_loses_trailing_space :
    stringCodec.parseV (stringCodec.printV "a ") = some "a " ∧
    WF (⟨[(1, ⟨1, "a "⟩)], []⟩ : Graph String) ∧
    readFromText stringCodec (formatText stringCodec ⟨[(1, ⟨1, "a "⟩)], []⟩) =
      .ok ⟨[(1, ⟨1, "a"⟩)], []⟩ ∧
    (⟨[(1, ⟨1, "a"⟩)], []⟩ : Graph String) ≠ ⟨[(1, ⟨1, "a "⟩)], []⟩ := by
  refine ⟨rfl, by decide, rfl, by decide⟩

/-- C5 (amended): for every well-formed graph over a value type whose
print/parse pair round-trips losslessly on the stored values and whose
printed value texts are nonempty, newline-free and do not end in whitespace,
parsing the formatted text succeeds and yields a graph with the same vertex
ids, the same vertex at every id, and the same adjacency relation. -/
theorem readFrom_formatText_roundTrip {T : Type} (codec : ValueCodec T)
    (g : Graph T) (hwf : WF g)
    (hvals : ∀ p ∈ g.vertices, GoodValue (codec.printV (p.2).value) ∧
        codec.parseV (codec.printV (p.2).value) = some (p.2).value) :
    ∃ gF, readFromText codec (formatText codec g) = .ok gF ∧
      getVerticesIds gF = getVerticesIds g ∧
      (∀ v, getVertex gF v = getVertex g v) ∧
      (∀ a b, edgeRel gF a b ↔ edgeRel g a b) := by
  obtain ⟨hvnd, hvid, hend, hedges⟩ := hwf
  have hnoNL : ∀ l ∈ formatLines codec g, '\n' ∉ l := by
    intro l hl
    unfold formatLines at hl
    rcases List.mem_append.mp hl with hl | hl
    · rcases List.mem_append.mp hl with hl | hl
      · rw [List.mem_map] at hl
        obtain ⟨p, hp, rfl⟩ := hl
        intro hmem
        unfold vertexLineChars at hmem
        rcases List.mem_append.mp hmem with hmem | hmem
        · exact (natDigits_chars _ _ hmem).2.2.2.2.1 rfl
        · rcases List.mem_cons.mp hmem with hmem | hmem
          · exact absurd hmem.symm (by decide)
          · exact ((hvals p hp).1).2.1 hmem
      · simp at hl
        rw [hl]
        decide
    · rw [edgeLinesChars_eq_map, List.mem_map] at hl
      obtain ⟨q, hq, rfl⟩ := hl
      intro hmem
      rcases List.mem_append.mp hmem with hmem | hmem
      · exact (natDigits_chars _ _ hmem).2.2.2.2.1 rfl
      · rcases List.mem_cons.mp hmem with hmem | hmem
        · exact absurd hmem.symm (by decide)
        · exact (natDigits_chars _ _ hmem).2.2.2.2.1 rfl
  have hsplitL : splitLines (formatText codec g) = formatLines codec g := by
    unfold formatText
    exact splitLines_joined _ hnoNL
  have hshape : formatLines codec g =
      g.vertices.map (vertexLineChars codec) ++ (['#'] :: edgeLinesChars g.edges) := by
    unfold formatLines
    rw [List.append_assoc]
    rfl
  have hfold : g.vertices.foldl (fun g' p => addVertex g' p.1 (p.2).value) (Graph.empty T) =
      ⟨g.vertices, []⟩ := by
    rw [foldl_addVertex_eq g.vertices hvid hvnd (Graph.empty T)
      (by intro k _ hk; simp [Graph.empty] at hk)]
    simp [Graph.empty]
  have hvrun : readVertices codec (Graph.empty T) (formatLines codec g) =
      .ok (⟨g.vertices, []⟩, edgeLinesChars g.edges) := by
    rw [hshape]
    rw [readVertices_vertexLines codec g.vertices
      (fun p hp => ⟨hvid p hp, (hvals p hp).1, (hvals p hp).2⟩) (Graph.empty T) _]
    rw [hfold, readVertices_hash]
  have hlines : readFromLines codec (formatLines codec g) =
      readEdges (⟨g.vertices, []⟩ : Graph T) (edgeLinesChars g.edges) := by
    unfold readFromLines
    rw [hvrun]
  unfold readFromText
  rw [hsplitL, hlines, edgeLinesChars_eq_map]
  obtain ⟨gF, hrun, hvert, hrel⟩ := readEdges_pairs (edgePairs g.edges)
    (⟨g.vertices, []⟩ : Graph T)
    (by
      intro q hq
      have hq' : (q.1, q.2) ∈ edgePairs g.edges := by cases q; exact hq
      obtain ⟨ns, hns, hb⟩ := (mem_edgePairs g.edges q.1 q.2).mp hq'
      have h1 := hedges (q.1, ns) hns
      exact ⟨h1.1, h1.2.2 q.2 hb⟩)
  refine ⟨gF, hrun, ?_, ?_, ?_⟩
  · show gF.vertices.map Prod.fst = g.vertices.map Prod.fst
    rw [hvert]
  · intro v
    show alookup gF.vertices v = alookup g.vertices v
    rw [hvert]
  · intro a b
    rw [hrel a b]
    constructor
    · rintro (hg | hp)
      · exact absurd hg (by simp [edgeRel, succs, alookup])
      · obtain ⟨ns, hns, hb⟩ := (mem_edgePairs g.edges a b).mp hp
        unfold edgeRel succs
        rw [mem_alookup_of_nodup hend hns]
        exact hb
    · intro hg
      right
      unfold edgeRel succs at hg
      rcases hlk : alookup g.edges a with _ | ns
      · rw [hlk] at hg
        simp at hg
      · rw [hlk] at hg
        simp at hg
        exact (mem_edgePairs g.edges a b).mpr ⟨ns, alookup_mem hlk, hg⟩

/-- Witness for the amended C5: a concrete two-vertex graph with an edge and
a value containing a space round-trips exactly. -/
theorem readFrom_formatText_roundTrip_witness :
    WF (⟨[(1, ⟨1, "a b"⟩), (2, ⟨2, "x"⟩)], [(1, [2])]⟩ : Graph String) ∧
    ∃ gF, readFromText stringCodec
        (formatText stringCodec ⟨[(1, ⟨1, "a b"⟩), (2, ⟨2, "x"⟩)], [(1, [2])]⟩) = .ok gF ∧
      getVerticesIds gF =
        getVerticesIds (⟨[(1, ⟨1, "a b"⟩), (2, ⟨2, "x"⟩)], [(1, [2])]⟩ : Graph String) ∧
      (∀ v, getVertex gF v =
        getVertex (⟨[(1, ⟨1, "a b"⟩), (2, ⟨2, "x"⟩)], [(1, [2])]⟩ : Graph String) v) ∧
      (∀ a b, edgeRel gF a b ↔
        edgeRel (⟨[(1, ⟨1, "a b"⟩), (2, ⟨2, "x"⟩)], [(1, [2])]⟩ : Graph String) a b) :=
  ⟨by decide,
    readFrom_formatText_roundTrip stringCodec
      (⟨[(1, ⟨1, "a b"⟩), (2, ⟨2, "x"⟩)], [(1, [2])]⟩ : Graph String)
      (by decide)
      (by
        intro p hp
        rcases List.mem_cons.mp hp with h | h
        · rw [h]
          exact ⟨by decide, rfl⟩
        · rcases List.mem_cons.mp h with h | h
          · rw [h]
            exact ⟨by decide, rfl⟩
          · cases h)⟩

/-! ### Traversals: measure machinery -/

/-- A finite universe containing every id a traversal can ever mark: the
vertex ids and every edge target. -/
def uni {T : Type} (g : Graph T) : List Nat :=
  (getVerticesIds g ++ (g.edges.map Prod.snd).flatten).dedup

/-- The number of universe elements not yet visited: the termination measure
of all traversals. -/
def countNot (u visited : List Nat) : Nat :=
  (u.filter fun x => x ∉ visited).length

theorem length_filter_le_of_imp {α : Type} (l : List α) (p q : α → Bool)
    (h : ∀ a, q a = true → p a = true) :
    (l.filter q).length ≤ (l.filter p).length := by
  induction l with
  | nil => simp
  | cons a rest ih =>
    by_cases hq : q a = true
    · rw [List.filter_cons_of_pos hq, List.filter_cons_of_pos (h a hq)]
      simpa using ih
    · rw [List.filter_cons_of_neg (by simp [hq])]
      by_cases hp : p a = true
      · rw [List.filter_cons_of_pos hp]
        exact Nat.le_succ_of_le ih
      · rw [List.filter_cons_of_neg (by simp [hp])]
        exact ih

theorem length_filter_lt_of_imp {α : Type} (l : List α) (p q : α → Bool)
    (h : ∀ a, q a = true → p a = true) (x : α) (hx : x ∈ l)
    (hpx : p x = true) (hqx : q x = false) :
    (l.filter q).length < (l.filter p).length := by
  induction l with
  | nil => cases hx
  | cons a rest ih =>
    rcases List.mem_cons.mp hx with rfl | hx'
    · rw [List.filter_cons_of_pos hpx, List.filter_cons_of_neg (by simp [hqx])]
      exact Nat.lt_succ_of_le (length_filter_le_of_imp rest p q h)
    · by_cases hq : q a = true
      · rw [List.filter_cons_of_pos hq, List.filter_cons_of_pos (h a hq)]
        simpa using ih hx'
      · rw [List.filter_cons_of_neg (by simp [hq])]
        by_cases hp : p a = true
        · rw [List.filter_cons_of_pos hp]
          exact Nat.lt_succ_of_le (Nat.le_of_lt (ih hx'))
        · rw [List.filter_cons_of_neg (by simp [hp])]
          exact ih hx'

theorem countNot_mono (u v1 v2 : List Nat) (h : ∀ x ∈ v1, x ∈ v2) :
    countNot u v2 ≤ countNot u v1 := by
  apply length_filter_le_of_imp
  intro a ha
  simp at ha ⊢
  intro hm
  exact ha (h a hm)

theorem countNot_lt_of_mem (u visited : List Nat) (x : Nat) (hxu : x ∈ u)
    (hxv : x ∉ visited) :
    countNot u (visited ++ [x]) < countNot u visited := by
  apply length_filter_lt_of_imp _ _ _ ?_ x hxu ?_ ?_
  · intro a ha
    rw [decide_eq_true_eq] at ha ⊢
    intro hm
    exact ha (List.mem_append_left _ hm)
  · rw [decide_eq_true_eq]
    exact hxv
  · simp

theorem ids_subset_uni {T : Type} (g : Graph T) :
    ∀ x ∈ getVerticesIds g, x ∈ uni g := by
  intro x hx
  unfold uni
  rw [List.mem_dedup]
  exact List.mem_append_left _ hx

theorem succs_subset_uni {T : Type} (g : Graph T) (v : Nat) :
    ∀ x ∈ succs g v, x ∈ uni g := by
  intro x hx
  unfold succs at hx
  rcases h : alookup g.edges v with _ | ns
  · rw [h] at hx; cases hx
  · rw [h] at hx
    simp at hx
    unfold uni
    rw [List.mem_dedup]
    apply List.mem_append_right
    rw [List.mem_flatten]
    exact ⟨ns, List.mem_map.mpr ⟨(v, ns), alookup_mem h, rfl⟩, hx⟩

theorem wf_succs_subset_ids {T : Type} {g : Graph T} (hwf : WF g) (v : Nat) :
    ∀ x ∈ succs g v, x ∈ getVerticesIds g := by
  intro x hx
  unfold succs at hx
  rcases h : alookup g.edges v with _ | ns
  · rw [h] at hx; cases hx
  · rw [h] at hx
    simp at hx
    exact (hwf.2.2.2 (v, ns) (alookup_mem h)).2.2 x hx

/-! ### The breadth-first visitor (`visitors/bfs_visitor.rs`) -/

/-- The inner `for` loop of `bfs_impl`: mark each not-yet-visited successor
visited and push it onto the queue. -/
def enqueueNeighbours : List Nat → List Nat → List Nat → List Nat × List Nat
  | visited, queue, [] => (visited, queue)
  | visited, queue, nx :: rest =>
    if nx ∈ visited then enqueueNeighbours visited queue rest
    else enqueueNeighbours (visited ++ [nx]) (queue ++ [nx]) rest

theorem enqueueNeighbours_spec (ns : List Nat) :
    ∀ visited queue : List Nat, ∃ fresh,
      enqueueNeighbours visited queue ns = (visited ++ fresh, queue ++ fresh) ∧
      fresh.Nodup ∧ (∀ x ∈ fresh, x ∈ ns ∧ x ∉ visited) := by
  induction ns with
  | nil => intro visited queue; exact ⟨[], by simp [enqueueNeighbours], by simp, by simp⟩
  | cons nx rest ih =>
    intro visited queue
    by_cases h : nx ∈ visited
    · obtain ⟨fresh, heq, hnd, hp⟩ := ih visited queue
      refine ⟨fresh, ?_, hnd, ?_⟩
      · show enqueueNeighbours visited queue (nx :: rest) = _
        unfold enqueueNeighbours
        rw [if_pos h]
        exact heq
      · exact fun x hx => ⟨List.mem_cons_of_mem _ (hp x hx).1, (hp x hx).2⟩
    · obtain ⟨fresh, heq, hnd, hp⟩ := ih (visited ++ [nx]) (queue ++ [nx])
      refine ⟨nx :: fresh, ?_, ?_, ?_⟩
      · show enqueueNeighbours visited queue (nx :: rest) = _
        unfold enqueueNeighbours
        rw [if_neg h, heq]
        simp
      · rw [List.nodup_cons]
        exact ⟨fun hm => (hp nx hm).2 (by simp), hnd⟩
      · intro x hx
        rcases List.mem_cons.mp hx with rfl | hx'
        · exact ⟨List.mem_cons_self _ _, h⟩
        · refine ⟨List.mem_cons_of_mem _ (hp x hx').1, fun hm => (hp x hx').2 ?_⟩
          exact List.mem_append_left _ hm

theorem countNot_append_le (u : List Nat) :
    ∀ (fresh visited : List Nat), fresh.Nodup →
      (∀ x ∈ fresh, x ∈ u ∧ x ∉ visited) →
      countNot u (visited ++ fresh) + fresh.length ≤ countNot u visited := by
  intro fresh
  induction fresh with
  | nil => intro visited _ _; simp
  | cons x rest ih =>
    intro visited hnd hp
    rw [List.nodup_cons] at hnd
    have h1 : countNot u ((visited ++ [x]) ++ rest) + rest.length ≤
        countNot u (visited ++ [x]) := by
      apply ih (visited ++ [x]) hnd.2
      intro y hy
      refine ⟨(hp y (List.mem_cons_of_mem _ hy)).1, fun hm => ?_⟩
      rcases List.mem_append.mp hm with hm | hm
      · exact (hp y (List.mem_cons_of_mem _ hy)).2 hm
      · simp at hm
        exact hnd.1 (hm ▸ hy)
    have h2 : countNot u (visited ++ [x]) < countNot u visited :=
      countNot_lt_of_mem u visited x (hp x (List.mem_cons_self _ _)).1
        (hp x (List.mem_cons_self _ _)).2
    have h3 : (visited ++ [x]) ++ rest = visited ++ x :: rest := by simp
    rw [h3] at h1
    have h4 : (x :: rest).length = rest.length + 1 := rfl
    omega

theorem enqueueNeighbours_measure {T : Type} (g : Graph T) (v : Nat)
    (visited queue : List Nat) :
    countNot (uni g) (enqueueNeighbours visited queue (succs g v)).1 +
      (enqueueNeighbours visited queue (succs g v)).2.length ≤
      countNot (uni g) visited + queue.length := by
  obtain ⟨fresh, heq, hnd, hp⟩ := enqueueNeighbours_spec (succs g v) visited queue
  rw [heq]
  have hle := countNot_append_le (uni g) fresh visited hnd
    (fun x hx => ⟨succs_subset_uni g v x (hp x hx).1, (hp x hx).2⟩)
  simp only [List.length_append]
  omega

/-- `bfs_impl`'s while loop: dequeue a vertex, apply the callback to it
(`get_vertex(v).unwrap()` — `none` models the panic on a dangling id), then
mark-and-enqueue its not-yet-visited successors.  Returns the final
visited set and the sequence of callback arguments. -/
def bfsLoop {T : Type} (g : Graph T) (visited queue : List Nat) :
    Option (List Nat × List Nat) :=
  match queue with
  | [] => some (visited, [])
  | v :: qrest =>
    match alookup g.vertices v with
    | none => none
    | some _ =>
      match bfsLoop g (enqueueNeighbours visited qrest (succs g v)).1
          (enqueueNeighbours visited qrest (succs g v)).2 with
      | none => none
      | some (visF, out) => some (visF, v :: out)
termination_by countNot (uni g) visited + queue.length
decreasing_by
  have := enqueueNeighbours_measure g v visited qrest
  simp only [List.length_cons]
  omega

/-- `BfsVisitor::visit` = `bfs_impl`: enqueue and mark the start vertex if it
is not already visited, then run the loop. -/
def bfsImpl {T : Type} (g : Graph T) (visited : List Nat) (v : Nat) :
    Option (List Nat × List Nat) :=
  if v ∈ visited then bfsLoop g visited []
  else bfsLoop g (visited ++ [v]) [v]

theorem bfsLoop_nil {T : Type} (g : Graph T) (visited : List Nat) :
    bfsLoop g visited [] = some (visited, []) := by
  rw [bfsLoop.eq_def]

theorem bfsLoop_cons {T : Type} (g : Graph T) (visited : List Nat) (v : Nat)
    (qrest : List Nat) (w : GraphVertex T) (h : alookup g.vertices v = some w) :
    bfsLoop g visited (v :: qrest) =
      match bfsLoop g (enqueueNeighbours visited qrest (succs g v)).1
          (enqueueNeighbours visited qrest (succs g v)).2 with
      | none => none
      | some (visF, out) => some (visF, v :: out) := by
  rw [bfsLoop.eq_def]
  simp [h]

/-- The invariant-carrying specification of `bfsLoop`: with all queue entries
being marked vertices of a well-formed graph, the loop succeeds, extends the
visited set by some duplicate-free block `Δ` of fresh vertex ids, and calls
the callback exactly on the queue entries plus `Δ`. -/
theorem bfsLoop_spec {T : Type} (g : Graph T) (hwf : WF g) :
    ∀ n : Nat, ∀ visited queue : List Nat,
      countNot (uni g) visited + queue.length ≤ n →
      (∀ x ∈ queue, x ∈ getVerticesIds g) → queue.Nodup →
      (∀ x ∈ queue, x ∈ visited) →
      ∃ Δ out, bfsLoop g visited queue = some (visited ++ Δ, out) ∧
        out.Perm (queue ++ Δ) ∧ Δ.Nodup ∧
        (∀ x ∈ Δ, x ∈ getVerticesIds g ∧ x ∉ visited) := by
  intro n
  induction n using Nat.strong_induction_on with
  | _ n ih =>
    intro visited queue hn hqids hqnd hqvis
    match queue with
    | [] =>
      refine ⟨[], [], ?_, by simp, by simp, by simp⟩
      rw [bfsLoop_nil]
      simp
    | v :: qrest =>
      obtain ⟨w, hw⟩ := Option.isSome_iff_exists.mp
        ((alookup_isSome_iff g.vertices v).mpr (hqids v (List.mem_cons_self _ _)))
      obtain ⟨fresh, henq, hfnd, hfp⟩ :=
        enqueueNeighbours_spec (succs g v) visited qrest
      have hmeas := enqueueNeighbours_measure g v visited qrest
      have hlen : (v :: qrest).length = qrest.length + 1 := rfl
      have hm : countNot (uni g) (enqueueNeighbours visited qrest (succs g v)).1 +
          (enqueueNeighbours visited qrest (succs g v)).2.length ≤ n - 1 := by omega
      have hlt : n - 1 < n := by omega
      obtain ⟨Δ', out', hrun, hperm, hnd', hp'⟩ := ih (n - 1) hlt
        (enqueueNeighbours visited qrest (succs g v)).1
        (enqueueNeighbours visited qrest (succs g v)).2 hm
        (by
          rw [henq]
          intro x hx
          rcases List.mem_append.mp hx with hx | hx
          · exact hqids x (List.mem_cons_of_mem _ hx)
          · exact wf_succs_subset_ids hwf v x (hfp x hx).1)
        (by
          rw [henq]
          rw [List.nodup_append]
          refine ⟨(List.nodup_cons.mp hqnd).2, hfnd, ?_⟩
          intro x hx hx'
          exact (hfp x hx').2 (hqvis x (List.mem_cons_of_mem _ hx))
        )
        (by
          rw [henq]
          intro x hx
          rcases List.mem_append.mp hx with hx | hx
          · exact List.mem_append_left _ (hqvis x (List.mem_cons_of_mem _ hx))
          · exact List.mem_append_right _ hx)
      rw [henq] at hrun
      refine ⟨fresh ++ Δ', v :: out', ?_, ?_, ?_, ?_⟩
      · rw [bfsLoop_cons g visited v qrest w hw, henq, hrun]
        rw [List.append_assoc]
      · rw [henq] at hperm
        have : (v :: qrest) ++ (fresh ++ Δ') = v :: (qrest ++ fresh ++ Δ') := by simp
        rw [this]
        apply List.Perm.cons
        exact hperm
      · rw [List.nodup_append]
        refine ⟨hfnd, hnd', ?_⟩
        intro x hx hx'
        rw [henq] at hp'
        exact (hp' x hx').2 (List.mem_append_right _ hx)
      · intro x hx
        rw [henq] at hp'
        rcases List.mem_append.mp hx with hx | hx
        · exact ⟨wf_succs_subset_ids hwf v x (hfp x hx).1, (hfp x hx).2⟩
        · exact ⟨(hp' x hx).1, fun hm' => (hp' x hx).2 (List.mem_append_left _ hm')⟩

/-- The contract a single-start visit shares between the two visitors: on a
well-formed graph and an existing start vertex it never panics, extends the
visited set by a fresh duplicate-free block `Δ` of vertex ids covering the
start, and applies the callback exactly once per element of `Δ`. -/
def ImplSpec {T : Type} (g : Graph T)
    (impl : List Nat → Nat → Option (List Nat × List Nat)) : Prop :=
  ∀ visited v, v ∈ getVerticesIds g →
    ∃ Δ out, impl visited v = some (visited ++ Δ, out) ∧ out.Perm Δ ∧ Δ.Nodup ∧
      (∀ x ∈ Δ, x ∈ getVerticesIds g ∧ x ∉ visited) ∧ v ∈ visited ++ Δ

theorem bfsImpl_implSpec {T : Type} (g : Graph T) (hwf : WF g) :
    ImplSpec g (bfsImpl g) := by
  intro visited v hv
  by_cases hm : v ∈ visited
  · refine ⟨[], [], ?_, by simp, by simp, by simp, by simp [hm]⟩
    unfold bfsImpl
    rw [if_pos hm, bfsLoop_nil]
    simp
  · obtain ⟨Δ', out', hrun, hperm, hnd', hp'⟩ := bfsLoop_spec g hwf
      (countNot (uni g) (visited ++ [v]) + 1) (visited ++ [v]) [v] le_rfl
      (by intro x hx; simp at hx; rw [hx]; exact hv)
      (by simp)
      (by intro x hx; simp at hx; rw [hx]; simp)
    refine ⟨v :: Δ', out', ?_, ?_, ?_, ?_, ?_⟩
    · unfold bfsImpl
      rw [if_neg hm, hrun]
      simp
    · exact hperm.trans (by simp)
    · rw [List.nodup_cons]
      exact ⟨fun hvd => (hp' v hvd).2 (by simp), hnd'⟩
    · intro x hx
      rcases List.mem_cons.mp hx with rfl | hx'
      · exact ⟨hv, hm⟩
      · exact ⟨(hp' x hx').1, fun hmm => (hp' x hx').2 (List.mem_append_left _ hmm)⟩
    · simp

/-! ### The depth-first visitor (`visitors/dfs_visitor.rs`) -/

mutual
/-- `dfs_impl`: return if visited, else mark, apply the callback
(`get_vertex(v).unwrap()` — `none` models the panic), then recurse into the
successors.  The subtype records that the visited set only grows, which
drives termination. -/
def dfsImplAux {T : Type} (g : Graph T) (visited : List Nat) (v : Nat) :
    Option { p : List Nat × List Nat // ∀ x ∈ visited, x ∈ p.1 } :=
  if hv : v ∈ visited then some ⟨(visited, []), fun _ hx => hx⟩
  else
    match hlk : alookup g.vertices v with
    | none => none
    | some _ =>
      match dfsListAux g (visited ++ [v]) (succs g v) with
      | none => none
      | some ⟨(visF, out), hF⟩ =>
        some ⟨(visF, v :: out), fun x hx => hF x (List.mem_append_left _ hx)⟩
  termination_by (countNot (uni g) visited, 0)
  decreasing_by
    apply Prod.Lex.left
    apply countNot_lt_of_mem _ _ v _ hv
    apply ids_subset_uni
    show v ∈ List.map Prod.fst g.vertices
    rw [← alookup_isSome_iff]
    simp [hlk]

/-- The successor loop of `dfs_impl`. -/
def dfsListAux {T : Type} (g : Graph T) (visited : List Nat) (vs : List Nat) :
    Option { p : List Nat × List Nat // ∀ x ∈ visited, x ∈ p.1 } :=
  match vs with
  | [] => some ⟨(visited, []), fun _ hx => hx⟩
  | w :: rest =>
    match dfsImplAux g visited w with
    | none => none
    | some ⟨(vis1, out1), h1⟩ =>
      match dfsListAux g vis1 rest with
      | none => none
      | some ⟨(visF, out2), h2⟩ =>
        some ⟨(visF, out1 ++ out2), fun x hx => h2 x (h1 x hx)⟩
  termination_by (countNot (uni g) visited, vs.length + 1)
  decreasing_by
    · apply Prod.Lex.right
      simp only [List.length_cons]
      omega
    · rcases Nat.lt_or_ge (countNot (uni g) vis1) (countNot (uni g) visited) with hlt | hge
      · exact Prod.Lex.left _ _ hlt
      · have hle : countNot (uni g) vis1 ≤ countNot (uni g) visited := by
          apply countNot_mono
          intro x hx
          exact h1 x hx
        have heq : countNot (uni g) vis1 = countNot (uni g) visited :=
          Nat.le_antisymm hle hge
        rw [heq]
        apply Prod.Lex.right
        simp only [List.length_cons]
        omega
end

/-- `DfsVisitor::visit` = `dfs_impl`, with the termination bookkeeping
erased. -/
def dfsImpl {T : Type} (g : Graph T) (visited : List Nat) (v : Nat) :
    Option (List Nat × List Nat) :=
  (dfsImplAux g visited v).map Subtype.val

/-- The successor loop of `dfs_impl`, with the bookkeeping erased. -/
def dfsList {T : Type} (g : Graph T) (visited : List Nat) (vs : List Nat) :
    Option (List Nat × List Nat) :=
  (dfsListAux g visited vs).map Subtype.val

theorem dfsListAux_nil {T : Type} (g : Graph T) (visited : List Nat) :
    dfsListAux g visited [] = some ⟨(visited, []), fun _ hx => hx⟩ := by
  conv_lhs => rw [dfsListAux.eq_def]

theorem dfsList_spec_of {T : Type} (g : Graph T) (m : Nat)
    (himpl : ∀ visited, countNot (uni g) visited ≤ m → ∀ v, v ∈ getVerticesIds g →
      ∃ Δ out, dfsImpl g visited v = some (visited ++ Δ, out) ∧ out.Perm Δ ∧ Δ.Nodup ∧
        (∀ x ∈ Δ, x ∈ getVerticesIds g ∧ x ∉ visited) ∧ v ∈ visited ++ Δ) :
    ∀ (vs visited : List Nat), countNot (uni g) visited ≤ m →
      (∀ w ∈ vs, w ∈ getVerticesIds g) →
      ∃ Δ out, dfsList g visited vs = some (visited ++ Δ, out) ∧ out.Perm Δ ∧ Δ.Nodup ∧
        (∀ x ∈ Δ, x ∈ getVerticesIds g ∧ x ∉ visited) ∧ (∀ w ∈ vs, w ∈ visited ++ Δ) := by
  intro vs
  induction vs with
  | nil =>
    intro visited _ _
    refine ⟨[], [], ?_, by simp, by simp, by simp, by simp⟩
    unfold dfsList
    rw [dfsListAux_nil]
    simp
  | cons w rest ih =>
    intro visited hm hws
    obtain ⟨Δ1, out1, h1run, h1perm, h1nd, h1p, h1mem⟩ :=
      himpl visited hm w (hws w (List.mem_cons_self _ _))
    obtain ⟨r1, hr1, hval1⟩ := Option.map_eq_some'.mp h1run
    obtain ⟨⟨vis1, outA⟩, hsub1⟩ := r1
    have hpair1 : (vis1, outA) = (visited ++ Δ1, out1) := hval1
    injection hpair1 with hA1 hB1
    subst hA1
    subst hB1
    obtain ⟨Δ2, out2, h2run, h2perm, h2nd, h2p, h2mem⟩ := ih (visited ++ Δ1)
      (le_trans (countNot_mono _ _ _ fun x hx => List.mem_append_left _ hx) hm)
      (fun w' hw' => hws w' (List.mem_cons_of_mem _ hw'))
    obtain ⟨r2, hr2, hval2⟩ := Option.map_eq_some'.mp h2run
    obtain ⟨⟨vis2, outB⟩, hsub2⟩ := r2
    have hpair2 : (vis2, outB) = ((visited ++ Δ1) ++ Δ2, out2) := hval2
    injection hpair2 with hA2 hB2
    subst hA2
    subst hB2
    refine ⟨Δ1 ++ Δ2, outA ++ outB, ?_, ?_, ?_, ?_, ?_⟩
    · unfold dfsList
      conv_lhs => rw [dfsListAux.eq_def]
      simp only [hr1, hr2]
      simp
    · exact h1perm.append h2perm
    · rw [List.nodup_append]
      refine ⟨h1nd, h2nd, ?_⟩
      intro x hx hx'
      exact (h2p x hx').2 (List.mem_append_right _ hx)
    · intro x hx
      rcases List.mem_append.mp hx with hx | hx
      · exact h1p x hx
      · exact ⟨(h2p x hx).1, fun hmm => (h2p x hx).2 (List.mem_append_left _ hmm)⟩
    · intro w' hw'
      rcases List.mem_cons.mp hw' with rfl | hw''
      · rcases List.mem_append.mp h1mem with hmm | hmm
        · exact List.mem_append_left _ hmm
        · exact List.mem_append_right _ (List.mem_append_left _ hmm)
      · have := h2mem w' hw''
        rcases List.mem_append.mp this with hmm | hmm
        · rcases List.mem_append.mp hmm with hmm' | hmm'
          · exact List.mem_append_left _ hmm'
          · exact List.mem_append_right _ (List.mem_append_left _ hmm')
        · exact List.mem_append_right _ (List.mem_append_right _ hmm)

theorem dfsImpl_spec {T : Type} (g : Graph T) (hwf : WF g) :
    ∀ (n : Nat) (visited : List Nat), countNot (uni g) visited ≤ n →
      ∀ v, v ∈ getVerticesIds g →
      ∃ Δ out, dfsImpl g visited v = some (visited ++ Δ, out) ∧ out.Perm Δ ∧ Δ.Nodup ∧
        (∀ x ∈ Δ, x ∈ getVerticesIds g ∧ x ∉ visited) ∧ v ∈ visited ++ Δ := by
  intro n
  induction n using Nat.strong_induction_on with
  | _ n ih =>
    intro visited hn v hv
    by_cases hmem : v ∈ visited
    · refine ⟨[], [], ?_, by simp, by simp, by simp, by simp [hmem]⟩
      unfold dfsImpl
      conv_lhs => rw [dfsImplAux.eq_def]
      rw [dif_pos hmem]
      simp
    · obtain ⟨w, hw⟩ := Option.isSome_iff_exists.mp ((alookup_isSome_iff _ _).mpr hv)
      have hvu : v ∈ uni g := ids_subset_uni g v hv
      have hlt : countNot (uni g) (visited ++ [v]) < countNot (uni g) visited :=
        countNot_lt_of_mem _ _ v hvu hmem
      have hn1 : 1 ≤ n := by omega
      obtain ⟨Δ1, out1, hrun, hperm, hnd, hp, hcov⟩ := dfsList_spec_of g (n - 1)
        (fun visited' hm' v' hv' => ih (n - 1) (by omega) visited' hm' v' hv')
        (succs g v) (visited ++ [v]) (by omega)
        (wf_succs_subset_ids hwf v)
      obtain ⟨r1, hr1, hval1⟩ := Option.map_eq_some'.mp hrun
      obtain ⟨⟨vis1, outA⟩, hsub1⟩ := r1
      have hpair1 : (vis1, outA) = ((visited ++ [v]) ++ Δ1, out1) := hval1
      injection hpair1 with hA1 hB1
      subst hA1
      subst hB1
      refine ⟨v :: Δ1, v :: outA, ?_, ?_, ?_, ?_, ?_⟩
      · unfold dfsImpl
        conv_lhs => rw [dfsImplAux.eq_def]
        rw [dif_neg hmem]
        split
        · next heq =>
          rw [heq] at hw
          cases hw
        · next val heq =>
          simp only [hr1]
          simp
      · exact hperm.cons v
      · rw [List.nodup_cons]
        exact ⟨fun hvd => (hp v hvd).2 (by simp), hnd⟩
      · intro x hx
        rcases List.mem_cons.mp hx with rfl | hx'
        · exact ⟨hv, hmem⟩
        · exact ⟨(hp x hx').1, fun hmm => (hp x hx').2 (List.mem_append_left _ hmm)⟩
      · simp

theorem dfsImpl_implSpec {T : Type} (g : Graph T) (hwf : WF g) :
    ImplSpec g (dfsImpl g) := fun visited v hv =>
  dfsImpl_spec g hwf (countNot (uni g) visited) visited le_rfl v hv

/-! ### `TopologicalSort` (`topological_sort.rs`) -/

theorem getNeighbours_of_mem {T : Type} (g : Graph T) (v : Nat)
    (hv : v ∈ getVerticesIds g) : getNeighbours g v = some (succs g v) := by
  unfold getNeighbours succs
  rw [if_pos ((alookup_isSome_iff _ _).mpr hv)]

mutual
/-- `TopologicalSort::dfs`: return if visited, else mark, recurse into the
successors (when the vertex has a neighbours entry), then push the vertex
onto the postorder accumulator. -/
def tsDfsAux {T : Type} (g : Graph T) (visited order : List Nat) (v : Nat) :
    { p : List Nat × List Nat // ∀ x ∈ visited, x ∈ p.1 } :=
  if hv : v ∈ visited then ⟨(visited, order), fun _ hx => hx⟩
  else
    match hnb : getNeighbours g v with
    | none => ⟨(visited ++ [v], order ++ [v]), fun x hx => List.mem_append_left _ hx⟩
    | some ns =>
      match tsDfsListAux g (visited ++ [v]) order ns with
      | ⟨(vis2, ord2), h2⟩ =>
        ⟨(vis2, ord2 ++ [v]), fun x hx => h2 x (List.mem_append_left _ hx)⟩
  termination_by (countNot (uni g) visited, 0)
  decreasing_by
    apply Prod.Lex.left
    apply countNot_lt_of_mem _ _ v _ hv
    apply ids_subset_uni
    show v ∈ List.map Prod.fst g.vertices
    rw [← alookup_isSome_iff]
    unfold getNeighbours at hnb
    by_cases hs : (alookup g.vertices v).isSome = true
    · exact hs
    · rw [if_neg hs] at hnb
      cases hnb

/-- The successor loop of `TopologicalSort::dfs`, which is also the shape of
the outer loop of `create_order`. -/
def tsDfsListAux {T : Type} (g : Graph T) (visited order : List Nat) (vs : List Nat) :
    { p : List Nat × List Nat // ∀ x ∈ visited, x ∈ p.1 } :=
  match vs with
  | [] => ⟨(visited, order), fun _ hx => hx⟩
  | w :: rest =>
    match tsDfsAux g visited order w with
    | ⟨(vis1, ord1), h1⟩ =>
      match tsDfsListAux g vis1 ord1 rest with
      | ⟨(visF, ordF), h2⟩ => ⟨(visF, ordF), fun x hx => h2 x (h1 x hx)⟩
  termination_by (countNot (uni g) visited, vs.length + 1)
  decreasing_by
    · apply Prod.Lex.right
      simp only [List.length_cons]
      omega
    · rcases Nat.lt_or_ge (countNot (uni g) vis1) (countNot (uni g) visited) with hlt | hge
      · exact Prod.Lex.left _ _ hlt
      · have hle : countNot (uni g) vis1 ≤ countNot (uni g) visited := by
          apply countNot_mono
          intro x hx
          exact h1 x hx
        have heq : countNot (uni g) vis1 = countNot (uni g) visited :=
          Nat.le_antisymm hle hge
        rw [heq]
        apply Prod.Lex.right
        simp only [List.length_cons]
        omega
end

/-- `TopologicalSort::dfs` with the termination bookkeeping erased: final
(visited, order) state. -/
def tsDfs {T : Type} (g : Graph T) (visited order : List Nat) (v : Nat) :
    List Nat × List Nat :=
  (tsDfsAux g visited order v).val

/-- A run of `dfs` over a list of vertices with threaded state. -/
def tsList {T : Type} (g : Graph T) (visited order : List Nat) (vs : List Nat) :
    List Nat × List Nat :=
  (tsDfsListAux g visited order vs).val

/-- `TopologicalSort::create_order`: postorder-DFS every vertex, then reverse
the accumulator. -/
def createOrder {T : Type} (g : Graph T) : List Nat :=
  (tsList g [] [] (getVerticesIds g)).2.reverse

theorem tsList_nil {T : Type} (g : Graph T) (visited order : List Nat) :
    tsList g visited order [] = (visited, order) := by
  unfold tsList
  conv_lhs => rw [tsDfsListAux.eq_def]

theorem tsList_cons {T : Type} (g : Graph T) (visited order : List Nat)
    (w : Nat) (rest : List Nat) :
    tsList g visited order (w :: rest) =
      tsList g (tsDfs g visited order w).1 (tsDfs g visited order w).2 rest := by
  unfold tsList tsDfs
  conv_lhs => rw [tsDfsListAux.eq_def]

theorem tsDfs_visited {T : Type} (g : Graph T) (visited order : List Nat) (v : Nat)
    (hv : v ∈ visited) : tsDfs g visited order v = (visited, order) := by
  unfold tsDfs
  conv_lhs => rw [tsDfsAux.eq_def]
  rw [dif_pos hv]

theorem tsDfs_unvisited {T : Type} (g : Graph T) (visited order : List Nat) (v : Nat)
    (hv : v ∉ visited) (hid : v ∈ getVerticesIds g) :
    tsDfs g visited order v =
      ((tsList g (visited ++ [v]) order (succs g v)).1,
       (tsList g (visited ++ [v]) order (succs g v)).2 ++ [v]) := by
  unfold tsDfs tsList
  conv_lhs => rw [tsDfsAux.eq_def]
  rw [dif_neg hv]
  split
  · next heq =>
    rw [getNeighbours_of_mem g v hid] at heq
    cases heq
  · next ns heq =>
    rw [getNeighbours_of_mem g v hid] at heq
    injection heq with hns
    subst hns
    rcases h2 : tsDfsListAux g (visited ++ [v]) order (succs g v) with ⟨⟨vis2, ord2⟩, hs2⟩
    simp [h2]

theorem tsList_spec_of {T : Type} (g : Graph T) (m : Nat)
    (himpl : ∀ visited, countNot (uni g) visited ≤ m → ∀ order v, v ∈ getVerticesIds g →
      ∃ Δ Ψ, tsDfs g visited order v = (visited ++ Δ, order ++ Ψ) ∧ Ψ.Perm Δ ∧ Δ.Nodup ∧
        (∀ x ∈ Δ, x ∈ getVerticesIds g ∧ x ∉ visited) ∧ v ∈ visited ++ Δ) :
    ∀ (vs visited : List Nat), countNot (uni g) visited ≤ m → ∀ order,
      (∀ w ∈ vs, w ∈ getVerticesIds g) →
      ∃ Δ Ψ, tsList g visited order vs = (visited ++ Δ, order ++ Ψ) ∧ Ψ.Perm Δ ∧ Δ.Nodup ∧
        (∀ x ∈ Δ, x ∈ getVerticesIds g ∧ x ∉ visited) ∧ (∀ w ∈ vs, w ∈ visited ++ Δ) := by
  intro vs
  induction vs with
  | nil =>
    intro visited hm order hws
    exact ⟨[], [], by rw [tsList_nil]; simp, by simp, by simp, by simp, by simp⟩
  | cons w rest ih =>
    intro visited hm order hws
    obtain ⟨Δ1, Ψ1, h1eq, h1perm, h1nd, h1p, h1mem⟩ :=
      himpl visited hm order w (hws w (List.mem_cons_self _ _))
    obtain ⟨Δ2, Ψ2, h2eq, h2perm, h2nd, h2p, h2mem⟩ := ih (visited ++ Δ1)
      (le_trans (countNot_mono _ _ _ fun x hx => List.mem_append_left _ hx) hm)
      (order ++ Ψ1)
      (fun w' hw' => hws w' (List.mem_cons_of_mem _ hw'))
    refine ⟨Δ1 ++ Δ2, Ψ1 ++ Ψ2, ?_, h1perm.append h2perm, ?_, ?_, ?_⟩
    · rw [tsList_cons, h1eq]
      show tsList g (visited ++ Δ1) (order ++ Ψ1) rest = _
      rw [h2eq]
      simp [List.append_assoc]
    · rw [List.nodup_append]
      refine ⟨h1nd, h2nd, ?_⟩
      intro x hx hx'
      exact (h2p x hx').2 (List.mem_append_right _ hx)
    · intro x hx
      rcases List.mem_append.mp hx with hx | hx
      · exact h1p x hx
      · exact ⟨(h2p x hx).1, fun hmm => (h2p x hx).2 (List.mem_append_left _ hmm)⟩
    · intro w' hw'
      rcases List.mem_cons.mp hw' with rfl | hw''
      · rcases List.mem_append.mp h1mem with hmm | hmm
        · exact List.mem_append_left _ hmm
        · exact List.mem_append_right _ (List.mem_append_left _ hmm)
      · have hin := h2mem w' hw''
        rcases List.mem_append.mp hin with hmm | hmm
        · rcases List.mem_append.mp hmm with hmm' | hmm'
          · exact List.mem_append_left _ hmm'
          · exact List.mem_append_right _ (List.mem_append_left _ hmm')
        · exact List.mem_append_right _ (List.mem_append_right _ hmm)

theorem tsDfs_spec {T : Type} (g : Graph T) (hwf : WF g) :
    ∀ (n : Nat) (visited : List Nat), countNot (uni g) visited ≤ n → ∀ order v,
      v ∈ getVerticesIds g →
      ∃ Δ Ψ, tsDfs g visited order v = (visited ++ Δ, order ++ Ψ) ∧ Ψ.Perm Δ ∧ Δ.Nodup ∧
        (∀ x ∈ Δ, x ∈ getVerticesIds g ∧ x ∉ visited) ∧ v ∈ visited ++ Δ := by
  intro n
  induction n using Nat.strong_induction_on with
  | _ n ih =>
    intro visited hn order v hv
    by_cases hmem : v ∈ visited
    · exact ⟨[], [], by rw [tsDfs_visited _ _ _ _ hmem]; simp, by simp, by simp, by simp,
        by simp [hmem]⟩
    · have hvu : v ∈ uni g := ids_subset_uni g v hv
      have hlt : countNot (uni g) (visited ++ [v]) < countNot (uni g) visited :=
        countNot_lt_of_mem _ _ v hvu hmem
      have hn1 : 1 ≤ n := by omega
      obtain ⟨Δ1, Ψ1, h1eq, h1perm, h1nd, h1p, h1mem⟩ := tsList_spec_of g (n - 1)
        (fun visited' hm' order' v' hv' => ih (n - 1) (by omega) visited' hm' order' v' hv')
        (succs g v) (visited ++ [v]) (by omega) order
        (wf_succs_subset_ids hwf v)
      refine ⟨v :: Δ1, Ψ1 ++ [v], ?_, ?_, ?_, ?_, ?_⟩
      · rw [tsDfs_unvisited _ _ _ _ hmem hv, h1eq]
        simp
      · exact (h1perm.append (List.Perm.refl [v])).trans List.perm_append_comm
      · rw [List.nodup_cons]
        exact ⟨fun hvd => (h1p v hvd).2 (by simp), h1nd⟩
      · intro x hx
        rcases List.mem_cons.mp hx with rfl | hx'
        · exact ⟨hv, hmem⟩
        · exact ⟨(h1p x hx').1, fun hmm => (h1p x hx').2 (List.mem_append_left _ hmm)⟩
      · simp

theorem perm_of_nodup_of_mem_iff {l1 l2 : List Nat} (h1 : l1.Nodup) (h2 : l2.Nodup)
    (h : ∀ x, x ∈ l1 ↔ x ∈ l2) : l1.Perm l2 := by
  rw [List.perm_iff_count]
  intro a
  by_cases ha : a ∈ l1
  · rw [List.count_eq_one_of_mem h1 ha, List.count_eq_one_of_mem h2 ((h a).mp ha)]
  · rw [List.count_eq_zero_of_not_mem ha,
      List.count_eq_zero_of_not_mem (fun hm => ha ((h a).mpr hm))]

/-- Core of claim C8: `create_order` terminates by construction (the model is
a total function) and returns a permutation of the vertex-id set, cyclic
graphs included (no acyclicity hypothesis). -/
theorem createOrder_perm_core {T : Type} (g : Graph T) (hwf : WF g) :
    (createOrder g).Perm (getVerticesIds g) := by
  obtain ⟨Δ, Ψ, heq, hperm, hnd, hp, hcov⟩ := tsList_spec_of g (countNot (uni g) [])
    (fun visited hm order v hv => tsDfs_spec g hwf _ visited hm order v hv)
    (getVerticesIds g) [] le_rfl [] (fun w hw => hw)
  have hΔ : Δ.Perm (getVerticesIds g) := by
    apply perm_of_nodup_of_mem_iff hnd hwf.1
    intro x
    constructor
    · intro hx
      exact (hp x hx).1
    · intro hx
      have := hcov x hx
      simpa using this
  unfold createOrder
  rw [heq]
  show ([] ++ Ψ : List Nat).reverse.Perm (getVerticesIds g)
  simp only [List.nil_append]
  exact (List.reverse_perm Ψ).trans (hperm.trans hΔ)

/-! ### `GraphVisitor::visit_all` (`visitors/graph_visitor.rs`) -/

/-- The two visitor variants. -/
inductive VisitorKind where
  | bfs
  | dfs

/-- `VisitOrder` (`visitors/visit_order.rs`). -/
inductive VOrder where
  | undefined
  | numbersAscending
  | topologicalSort

/-- The single-start visit of the chosen visitor. -/
def visitImpl {T : Type} : VisitorKind → Graph T → List Nat → Nat → Option (List Nat × List Nat)
  | .bfs => bfsImpl
  | .dfs => dfsImpl

/-- The start-vertex sequence `visit_all` computes for each policy. -/
def startsFor {T : Type} (g : Graph T) : VOrder → List Nat
  | .undefined => getVerticesIds g
  | .numbersAscending => List.insertionSort (· ≤ ·) (getVerticesIds g)
  | .topologicalSort => createOrder g

/-- The loop of `visit_all`: repeated single-start visits with the visited
set accumulating across them. -/
def visitStarts {T : Type} (k : VisitorKind) (g : Graph T) :
    List Nat → List Nat → Option (List Nat × List Nat)
  | visited, [] => some (visited, [])
  | visited, s :: rest =>
    match visitImpl k g visited s with
    | none => none
    | some (vis1, out1) =>
      match visitStarts k g vis1 rest with
      | none => none
      | some (visF, out2) => some (visF, out1 ++ out2)

/-- `visit_all`: clear the visited state (whatever it was), compute the start
sequence for the policy, then visit each start in turn. -/
def visitAll {T : Type} (k : VisitorKind) (g : Graph T) (_visited0 : List Nat)
    (ord : VOrder) : Option (List Nat × List Nat) :=
  visitStarts k g [] (startsFor g ord)

theorem visitStarts_spec {T : Type} (g : Graph T) (k : VisitorKind)
    (hspec : ImplSpec g (visitImpl k g)) :
    ∀ (starts visited : List Nat), (∀ s ∈ starts, s ∈ getVerticesIds g) →
      ∃ Δ out, visitStarts k g visited starts = some (visited ++ Δ, out) ∧ out.Perm Δ ∧
        Δ.Nodup ∧ (∀ x ∈ Δ, x ∈ getVerticesIds g ∧ x ∉ visited) ∧
        (∀ s ∈ starts, s ∈ visited ++ Δ) := by
  intro starts
  induction starts with
  | nil =>
    intro visited _
    exact ⟨[], [], by simp [visitStarts], by simp, by simp, by simp, by simp⟩
  | cons s rest ih =>
    intro visited hs
    obtain ⟨Δ1, out1, h1run, h1perm, h1nd, h1p, h1mem⟩ :=
      hspec visited s (hs s (List.mem_cons_self _ _))
    obtain ⟨Δ2, out2, h2run, h2perm, h2nd, h2p, h2mem⟩ := ih (visited ++ Δ1)
      (fun s' hs' => hs s' (List.mem_cons_of_mem _ hs'))
    refine ⟨Δ1 ++ Δ2, out1 ++ out2, ?_, h1perm.append h2perm, ?_, ?_, ?_⟩
    · show (match visitImpl k g visited s with
        | none => none
        | some (vis1, out1) =>
          match visitStarts k g vis1 rest with
          | none => none
          | some (visF, out2) => some (visF, out1 ++ out2)) = _
      simp only [h1run, h2run]
      simp [List.append_assoc]
    · rw [List.nodup_append]
      refine ⟨h1nd, h2nd, ?_⟩
      intro x hx hx'
      exact (h2p x hx').2 (List.mem_append_right _ hx)
    · intro x hx
      rcases List.mem_append.mp hx with hx | hx
      · exact h1p x hx
      · exact ⟨(h2p x hx).1, fun hmm => (h2p x hx).2 (List.mem_append_left _ hmm)⟩
    · intro s' hs'
      rcases List.mem_cons.mp hs' with rfl | hs''
      · rcases List.mem_append.mp h1mem with hmm | hmm
        · exact List.mem_append_left _ hmm
        · exact List.mem_append_right _ (List.mem_append_left _ hmm)
      · have hin := h2mem s' hs''
        rcases List.mem_append.mp hin with hmm | hmm
        · rcases List.mem_append.mp hmm with hmm' | hmm'
          · exact List.mem_append_left _ hmm'
          · exact List.mem_append_right _ (List.mem_append_left _ hmm')
        · exact List.mem_append_right _ (List.mem_append_right _ hmm)

/-- C6: on a well-formed graph, one `visit_all` call — with either visitor,
any order policy, and any visited-state before the call (cleared first) —
succeeds and invokes the callback exactly once per vertex: the callback
sequence is a permutation of the vertex-id set, hence exactly `|V|`
invocations. -/
theorem visitAll_each_vertex_once {T : Type} (g : Graph T) (hwf : WF g)
    (k : VisitorKind) (ord : VOrder) (visited0 : List Nat) :
    ∃ visF out, visitAll k g visited0 ord = some (visF, out) ∧
      out.Perm (getVerticesIds g) ∧ out.length = (getVerticesIds g).length := by
  have hspec : ImplSpec g (visitImpl k g) := by
    cases k
    · exact bfsImpl_implSpec g hwf
    · exact dfsImpl_implSpec g hwf
  have hmemiff : ∀ s, s ∈ startsFor g ord ↔ s ∈ getVerticesIds g := by
    intro s
    cases ord
    · exact Iff.rfl
    · exact (List.perm_insertionSort (· ≤ ·) (getVerticesIds g)).mem_iff
    · exact (createOrder_perm_core g hwf).mem_iff
  obtain ⟨Δ, out, hrun, hperm, hnd, hp, hcov⟩ := visitStarts_spec g k hspec
    (startsFor g ord) [] (fun s hs => (hmemiff s).mp hs)
  have hΔ : Δ.Perm (getVerticesIds g) := by
    apply perm_of_nodup_of_mem_iff hnd hwf.1
    intro x
    constructor
    · intro hx
      exact (hp x hx).1
    · intro hx
      have := hcov x ((hmemiff x).mpr hx)
      simpa using this
  refine ⟨[] ++ Δ, out, ?_, ?_, ?_⟩
  · unfold visitAll
    exact hrun
  · exact hperm.trans hΔ
  · exact (hperm.trans hΔ).length_eq

/-- Witness for C6: the two-vertex graph with edge `1 → 2`, DFS visitor,
topological order, nonempty stale visited-state. -/
theorem visitAll_each_vertex_once_witness :
    WF (⟨[(1, ⟨1, 0⟩), (2, ⟨2, 0⟩)], [(1, [2])]⟩ : Graph Nat) ∧
    ∃ visF out,
      visitAll .dfs (⟨[(1, ⟨1, 0⟩), (2, ⟨2, 0⟩)], [(1, [2])]⟩ : Graph Nat) [7]
        .topologicalSort = some (visF, out) ∧
      out.Perm (getVerticesIds (⟨[(1, ⟨1, 0⟩), (2, ⟨2, 0⟩)], [(1, [2])]⟩ : Graph Nat)) ∧
      out.length =
        (getVerticesIds (⟨[(1, ⟨1, 0⟩), (2, ⟨2, 0⟩)], [(1, [2])]⟩ : Graph Nat)).length :=
  ⟨by decide,
    visitAll_each_vertex_once (⟨[(1, ⟨1, 0⟩), (2, ⟨2, 0⟩)], [(1, [2])]⟩ : Graph Nat)
      (by decide) .dfs .topologicalSort [7]⟩

/-- C8: for every well-formed graph, cyclic ones included,
`TopologicalSort::create_order` terminates (it is a total function of the
model; visited-marking bounds the recursion) and returns a permutation of
the vertex-id set. -/
theorem createOrder_permutation {T : Type} (g : Graph T) (hwf : WF g) :
    (createOrder g).Perm (getVerticesIds g) :=
  createOrder_perm_core g hwf

/-- Witness for C8 on a two-cycle. -/
theorem createOrder_permutation_witness :
    WF (⟨[(1, ⟨1, 0⟩), (2, ⟨2, 0⟩)], [(1, [2]), (2, [1])]⟩ : Graph Nat) ∧
    (createOrder (⟨[(1, ⟨1, 0⟩), (2, ⟨2, 0⟩)], [(1, [2]), (2, [1])]⟩ : Graph Nat)).Perm
      (getVerticesIds (⟨[(1, ⟨1, 0⟩), (2, ⟨2, 0⟩)], [(1, [2]), (2, [1])]⟩ : Graph Nat)) :=
  ⟨by decide,
    createOrder_permutation (⟨[(1, ⟨1, 0⟩), (2, ⟨2, 0⟩)], [(1, [2]), (2, [1])]⟩ : Graph Nat)
      (by decide)⟩

/-! ### Claim C7: the topological order respects edges on acyclic graphs -/

/-- Acyclicity: no nonempty directed path from a vertex to itself. -/
def Acyclic {T : Type} (g : Graph T) : Prop :=
  ∀ v, ¬ Relation.TransGen (edgeRel g) v v

/-- Every vertex of the accumulator has each of its successors emitted
strictly before it. -/
def prefixClosed {T : Type} (g : Graph T) (l : List Nat) : Prop :=
  ∀ (i : Nat) (hi : i < l.length) (w : Nat),
    edgeRel g (l.get ⟨i, hi⟩) w → w ∈ l.take i

theorem prefixClosed_nil {T : Type} (g : Graph T) : prefixClosed g [] := by
  intro i hi
  simp at hi

theorem prefixClosed_push {T : Type} (g : Graph T) (l : List Nat) (v : Nat)
    (hpc : prefixClosed g l) (hsucc : ∀ w, edgeRel g v w → w ∈ l) :
    prefixClosed g (l ++ [v]) := by
  intro i hi w he
  by_cases hil : i < l.length
  · have hget : (l ++ [v]).get ⟨i, hi⟩ = l.get ⟨i, hil⟩ :=
      List.getElem_append_left hil
    rw [List.take_append_of_le_length (Nat.le_of_lt hil)]
    apply hpc i hil w
    rw [← hget]
    exact he
  · have hieq : i = l.length := by
      have hi' := hi
      simp at hi'
      omega
    subst hieq
    have hget : (l ++ [v]).get ⟨l.length, hi⟩ = v := by
      show (l ++ [v])[l.length] = v
      rw [List.getElem_concat_length]
      rfl
    rw [hget] at he
    rw [List.take_left]
    exact hsucc w he

theorem tsList_strong_of {T : Type} (g : Graph T) (hwf : WF g) (hac : Acyclic g) (m : Nat)
    (himpl : ∀ visited, countNot (uni g) visited ≤ m → ∀ order v, v ∈ getVerticesIds g →
      (∀ x ∈ visited, x ∈ order ∨ Relation.ReflTransGen (edgeRel g) x v) →
      prefixClosed g order →
      prefixClosed g (tsDfs g visited order v).2 ∧
      (∀ x ∈ (tsDfs g visited order v).1, x ∈ visited ∨ x ∈ (tsDfs g visited order v).2) ∧
      (v ∉ visited → v ∈ (tsDfs g visited order v).2)) :
    ∀ (vs visited : List Nat), countNot (uni g) visited ≤ m →
      ∀ (order : List Nat) (p : Nat),
      (∀ w ∈ vs, edgeRel g p w) →
      (∀ x ∈ visited, x ∈ order ∨ Relation.ReflTransGen (edgeRel g) x p) →
      prefixClosed g order →
      prefixClosed g (tsList g visited order vs).2 ∧
      (∀ x ∈ (tsList g visited order vs).1, x ∈ visited ∨ x ∈ (tsList g visited order vs).2) ∧
      (∀ w ∈ vs, w ∈ (tsList g visited order vs).2) := by
  intro vs
  induction vs with
  | nil =>
    intro visited hm order p hE hinv hpc
    rw [tsList_nil]
    exact ⟨hpc, fun x hx => Or.inl hx, by simp⟩
  | cons w rest ih =>
    intro visited hm order p hE hinv hpc
    have hwid : w ∈ getVerticesIds g :=
      wf_succs_subset_ids hwf p w (hE w (List.mem_cons_self _ _))
    obtain ⟨Δ1, Ψ1, h1eq, h1perm, h1nd, h1p, h1mem⟩ :=
      tsDfs_spec g hwf (countNot (uni g) visited) visited le_rfl order w hwid
    obtain ⟨hS1, hS2, hS3⟩ := himpl visited hm order w hwid
      (fun x hx => (hinv x hx).imp id
        (fun hr => Relation.ReflTransGen.tail hr (hE w (List.mem_cons_self _ _))))
      hpc
    have hword : w ∈ (tsDfs g visited order w).2 := by
      by_cases hwv : w ∈ visited
      · rcases hinv w hwv with ho | hr
        · rw [h1eq]
          exact List.mem_append_left _ ho
        · exact absurd (Relation.TransGen.head' (hE w (List.mem_cons_self _ _)) hr) (hac p)
      · exact hS3 hwv
    have hmono1 : countNot (uni g) (visited ++ Δ1) ≤ m :=
      le_trans (countNot_mono _ _ _ fun x hx => List.mem_append_left _ hx) hm
    obtain ⟨hL1, hL2, hL3⟩ := ih (visited ++ Δ1) hmono1 (order ++ Ψ1) p
      (fun w' hw' => hE w' (List.mem_cons_of_mem _ hw'))
      (fun x hx => by
        have hx2 := hS2 x (by rw [h1eq]; exact hx)
        rcases hx2 with hxv | hxo
        · rcases hinv x hxv with ho | hr
          · exact Or.inl (List.mem_append_left _ ho)
          · exact Or.inr hr
        · rw [h1eq] at hxo
          exact Or.inl hxo)
      (by
        have hS1' := hS1
        rw [h1eq] at hS1'
        exact hS1')
    obtain ⟨Δ2, Ψ2, h2eq, h2perm, h2nd, h2p, h2mem⟩ :=
      tsList_spec_of g (countNot (uni g) (visited ++ Δ1))
        (fun visited' hm' order' v' hv' => tsDfs_spec g hwf _ visited' hm' order' v' hv')
        rest (visited ++ Δ1) le_rfl (order ++ Ψ1)
        (fun w' hw' => wf_succs_subset_ids hwf p w' (hE w' (List.mem_cons_of_mem _ hw')))
    have hstep : tsList g visited order (w :: rest) =
        tsList g (visited ++ Δ1) (order ++ Ψ1) rest := by
      rw [tsList_cons, h1eq]
    refine ⟨?_, ?_, ?_⟩
    · rw [hstep]
      exact hL1
    · intro x hx
      rw [hstep] at hx ⊢
      rcases hL2 x hx with hxv | hxo
      · rcases List.mem_append.mp hxv with hxv' | hxd
        · exact Or.inl hxv'
        · have hx1 : x ∈ (tsDfs g visited order w).1 := by
            rw [h1eq]
            exact List.mem_append_right _ hxd
          rcases hS2 x hx1 with hxv2 | hxo2
          · exact Or.inl hxv2
          · right
            rw [h2eq]
            apply List.mem_append_left
            rw [h1eq] at hxo2
            exact hxo2
      · exact Or.inr hxo
    · intro w' hw'
      rcases List.mem_cons.mp hw' with rfl | hw''
      · rw [hstep, h2eq]
        apply List.mem_append_left
        rw [h1eq] at hword
        exact hword
      · rw [hstep]
        exact hL3 w' hw''

theorem tsDfs_strong {T : Type} (g : Graph T) (hwf : WF g) (hac : Acyclic g) :
    ∀ (n : Nat) (visited : List Nat), countNot (uni g) visited ≤ n →
      ∀ (order : List Nat) (v : Nat), v ∈ getVerticesIds g →
      (∀ x ∈ visited, x ∈ order ∨ Relation.ReflTransGen (edgeRel g) x v) →
      prefixClosed g order →
      prefixClosed g (tsDfs g visited order v).2 ∧
      (∀ x ∈ (tsDfs g visited order v).1, x ∈ visited ∨ x ∈ (tsDfs g visited order v).2) ∧
      (v ∉ visited → v ∈ (tsDfs g visited order v).2) := by
  intro n
  induction n using Nat.strong_induction_on with
  | _ n ih =>
    intro visited hn order v hv hinv hpc
    by_cases hmem : v ∈ visited
    · rw [tsDfs_visited _ _ _ _ hmem]
      exact ⟨hpc, fun x hx => Or.inl hx, fun hc => absurd hmem hc⟩
    · have hvu : v ∈ uni g := ids_subset_uni g v hv
      have hlt := countNot_lt_of_mem (uni g) visited v hvu hmem
      have hn1 : 1 ≤ n := by omega
      obtain ⟨hL1, hL2, hL3⟩ := tsList_strong_of g hwf hac (n - 1)
        (fun visited' hm' order' v' hv' hinv' hpc' =>
          ih (n - 1) (by omega) visited' hm' order' v' hv' hinv' hpc')
        (succs g v) (visited ++ [v]) (by omega) order v
        (fun w hw => hw)
        (fun x hx => by
          rcases List.mem_append.mp hx with hxv | hxv
          · exact hinv x hxv
          · simp at hxv
            subst hxv
            exact Or.inr Relation.ReflTransGen.refl)
        hpc
      rw [tsDfs_unvisited _ _ _ _ hmem hv]
      refine ⟨?_, ?_, ?_⟩
      · show prefixClosed g ((tsList g (visited ++ [v]) order (succs g v)).2 ++ [v])
        exact prefixClosed_push g _ v hL1 (fun w hew => hL3 w hew)
      · intro x hx
        have hx' : x ∈ (tsList g (visited ++ [v]) order (succs g v)).1 := hx
        rcases hL2 x hx' with hxv | hxo
        · rcases List.mem_append.mp hxv with hxv' | hxv'
          · exact Or.inl hxv'
          · right
            apply List.mem_append_right
            simpa using hxv'
        · exact Or.inr (List.mem_append_left _ hxo)
      · intro _
        exact List.mem_append_right _ (by simp)

theorem tsOuter_strong {T : Type} (g : Graph T) (hwf : WF g) (hac : Acyclic g) :
    ∀ (starts visited order : List Nat),
      (∀ s ∈ starts, s ∈ getVerticesIds g) →
      (∀ x ∈ visited, x ∈ order) →
      prefixClosed g order →
      prefixClosed g (tsList g visited order starts).2 ∧
      (∀ x ∈ (tsList g visited order starts).1, x ∈ (tsList g visited order starts).2) ∧
      (∀ s ∈ starts, s ∈ (tsList g visited order starts).2) := by
  intro starts
  induction starts with
  | nil =>
    intro visited order hs hvo hpc
    rw [tsList_nil]
    exact ⟨hpc, hvo, by simp⟩
  | cons s rest ih =>
    intro visited order hs hvo hpc
    have hsid := hs s (List.mem_cons_self _ _)
    obtain ⟨Δ1, Ψ1, h1eq, h1perm, h1nd, h1p, h1mem⟩ :=
      tsDfs_spec g hwf (countNot (uni g) visited) visited le_rfl order s hsid
    obtain ⟨hS1, hS2, hS3⟩ := tsDfs_strong g hwf hac (countNot (uni g) visited) visited
      le_rfl order s hsid (fun x hx => Or.inl (hvo x hx)) hpc
    have hsord : s ∈ (tsDfs g visited order s).2 := by
      by_cases hsv : s ∈ visited
      · rw [h1eq]
        exact List.mem_append_left _ (hvo s hsv)
      · exact hS3 hsv
    have hinv1 : ∀ x ∈ visited ++ Δ1, x ∈ order ++ Ψ1 := by
      intro x hx
      have hx1 : x ∈ (tsDfs g visited order s).1 := by
        rw [h1eq]
        exact hx
      rcases hS2 x hx1 with hxv | hxo
      · exact List.mem_append_left _ (hvo x hxv)
      · rw [h1eq] at hxo
        exact hxo
    obtain ⟨hL1, hL2, hL3⟩ := ih (visited ++ Δ1) (order ++ Ψ1)
      (fun s' hs' => hs s' (List.mem_cons_of_mem _ hs'))
      hinv1
      (by
        have hS1' := hS1
        rw [h1eq] at hS1'
        exact hS1')
    obtain ⟨Δ2, Ψ2, h2eq, h2perm, h2nd, h2p, h2mem⟩ :=
      tsList_spec_of g (countNot (uni g) (visited ++ Δ1))
        (fun visited' hm' order' v' hv' => tsDfs_spec g hwf _ visited' hm' order' v' hv')
        rest (visited ++ Δ1) le_rfl (order ++ Ψ1)
        (fun s' hs' => hs s' (List.mem_cons_of_mem _ hs'))
    have hstep : tsList g visited order (s :: rest) =
        tsList g (visited ++ Δ1) (order ++ Ψ1) rest := by
      rw [tsList_cons, h1eq]
    refine ⟨?_, ?_, ?_⟩
    · rw [hstep]
      exact hL1
    · intro x hx
      rw [hstep] at hx ⊢
      exact hL2 x hx
    · intro s' hs'
      rcases List.mem_cons.mp hs' with rfl | hs''
      · rw [hstep, h2eq]
        apply List.mem_append_left
        rw [h1eq] at hsord
        exact hsord
      · rw [hstep]
        exact hL3 s' hs''

theorem get_reverse_of (l : List Nat) (i : Nat) (hi : i < l.length)
    (h2 : l.length - 1 - i < l.reverse.length) :
    l.reverse.get ⟨l.length - 1 - i, h2⟩ = l.get ⟨i, hi⟩ := by
  rw [List.get_eq_getElem, List.get_eq_getElem, List.getElem_reverse]
  congr 1
  simp only [Fin.val_mk]
  simp only [List.length_reverse] at h2
  omega

/-- C7: on a well-formed acyclic graph, the order produced by
`TopologicalSort::create_order` (postorder DFS, then reverse) places `u`
strictly before `w` for every edge `u → w`. -/
theorem createOrder_respects_edges {T : Type} (g : Graph T) (hwf : WF g)
    (hac : Acyclic g) (u w : Nat) (he : edgeRel g u w) :
    ∃ i j : Fin (createOrder g).length, (i : Nat) < (j : Nat) ∧
      (createOrder g).get i = u ∧ (createOrder g).get j = w := by
  have hu : u ∈ getVerticesIds g := by
    unfold edgeRel succs at he
    rcases hlk : alookup g.edges u with _ | ns
    · rw [hlk] at he
      cases he
    · exact (hwf.2.2.2 (u, ns) (alookup_mem hlk)).1
  obtain ⟨hT1, hT2, hT3⟩ := tsOuter_strong g hwf hac (getVerticesIds g) [] []
    (fun s hs => hs) (by simp) (prefixClosed_nil g)
  obtain ⟨iu, hiu⟩ := List.mem_iff_get.mp (hT3 u hu)
  have hw_take : w ∈ (tsList g [] [] (getVerticesIds g)).2.take iu.val := by
    apply hT1 iu.val iu.isLt w
    rw [hiu]
    exact he
  obtain ⟨jw, hjw⟩ := List.mem_iff_get.mp hw_take
  have hjlt : jw.val < iu.val := by
    have hj := jw.isLt
    simp [List.length_take] at hj
    omega
  have hjlen : jw.val < (tsList g [] [] (getVerticesIds g)).2.length :=
    Nat.lt_trans hjlt iu.isLt
  have hΨj : (tsList g [] [] (getVerticesIds g)).2.get ⟨jw.val, hjlen⟩ = w := by
    rw [← hjw]
    show (tsList g [] [] (getVerticesIds g)).2[jw.val] =
      ((tsList g [] [] (getVerticesIds g)).2.take iu.val)[jw.val]
    symm
    exact List.getElem_take _
  have hlenrev : (createOrder g).length = (tsList g [] [] (getVerticesIds g)).2.length := by
    unfold createOrder
    simp
  have hL := iu.isLt
  refine ⟨⟨(tsList g [] [] (getVerticesIds g)).2.length - 1 - iu.val, by omega⟩,
    ⟨(tsList g [] [] (getVerticesIds g)).2.length - 1 - jw.val, by omega⟩, ?_, ?_, ?_⟩
  · show (tsList g [] [] (getVerticesIds g)).2.length - 1 - iu.val <
      (tsList g [] [] (getVerticesIds g)).2.length - 1 - jw.val
    omega
  · exact (get_reverse_of ((tsList g [] [] (getVerticesIds g)).2) iu.val iu.isLt
      (by
        simp only [List.length_reverse]
        omega)).trans hiu
  · exact (get_reverse_of ((tsList g [] [] (getVerticesIds g)).2) jw.val hjlen
      (by
        simp only [List.length_reverse]
        omega)).trans hΨj

theorem edge_g12_shape : ∀ u w : Nat,
    edgeRel (⟨[(1, ⟨1, 0⟩), (2, ⟨2, 0⟩)], [(1, [2])]⟩ : Graph Nat) u w →
      u = 1 ∧ w = 2 := by
  intro u w he
  unfold edgeRel succs at he
  show u = 1 ∧ w = 2
  by_cases hu : (1 : Nat) = u
  · have hlk : alookup [(1, [2])] u = some [2] := by
      unfold alookup
      rw [if_pos hu]
    rw [hlk] at he
    simp at he
    exact ⟨hu.symm, he⟩
  · have hlk : alookup [(1, [2])] u = none := by
      unfold alookup
      rw [if_neg hu]
      rfl
    rw [hlk] at he
    simp at he

theorem acyclic_g12 :
    Acyclic (⟨[(1, ⟨1, 0⟩), (2, ⟨2, 0⟩)], [(1, [2])]⟩ : Graph Nat) := by
  intro v htg
  have hshape : ∀ a b : Nat,
      Relation.TransGen (edgeRel (⟨[(1, ⟨1, 0⟩), (2, ⟨2, 0⟩)], [(1, [2])]⟩ : Graph Nat)) a b →
        a = 1 ∧ b = 2 := by
    intro a b h
    induction h with
    | single he => exact edge_g12_shape _ _ he
    | tail _ hbc ihab =>
      have h2 := edge_g12_shape _ _ hbc
      exact ⟨ihab.1, by omega⟩
  have := hshape v v htg
  omega

/-- Witness for C7 on the two-vertex acyclic graph with edge `1 → 2`. -/
theorem createOrder_respects_edges_witness :
    WF (⟨[(1, ⟨1, 0⟩), (2, ⟨2, 0⟩)], [(1, [2])]⟩ : Graph Nat) ∧
    edgeRel (⟨[(1, ⟨1, 0⟩), (2, ⟨2, 0⟩)], [(1, [2])]⟩ : Graph Nat) 1 2 ∧
    ∃ i j : Fin (createOrder (⟨[(1, ⟨1, 0⟩), (2, ⟨2, 0⟩)], [(1, [2])]⟩ : Graph Nat)).length,
      (i : Nat) < (j : Nat) ∧
      (createOrder (⟨[(1, ⟨1, 0⟩), (2, ⟨2, 0⟩)], [(1, [2])]⟩ : Graph Nat)).get i = 1 ∧
      (createOrder (⟨[(1, ⟨1, 0⟩), (2, ⟨2, 0⟩)], [(1, [2])]⟩ : Graph Nat)).get j = 2 :=
  ⟨by decide, by decide,
    createOrder_respects_edges (⟨[(1, ⟨1, 0⟩), (2, ⟨2, 0⟩)], [(1, [2])]⟩ : Graph Nat)
      (by decide) acyclic_g12 1 2 (by decide)⟩

end TG
